import Mathlib

/-!
Verification development for the uniform spreading/interpolation engine
(class UniformSpread, src/pyxu/operator/linop/spread.py).

Shallow embedding conventions:
* machine floats are modelled by exact rationals;
* the (M, D) support-point array is a function from point index and axis to a
  rational; the lattice specifier carries per-axis start/stop/count;
* the numba scatter/gather loops (f_spread, f_interpolate) are embedded as the
  sums they accumulate, with the find_bounds trimming of zero kernel weights
  kept explicit;
* the thread-pool dispatch over clusters is embedded as a fold over the
  cluster list (summation for spread, slot assignment for interpolate), which
  is the order-independent meaning of the lock-guarded accumulation;
* the clustering helpers grid_cluster and bisect_cluster live in
  pyxu.math.cluster, which is not part of the sources at hand; they are
  modelled from the spec (coarse grid bucketing by cells of size
  2 s max_window_ratio, then recursive median bisection along the longest
  axis of clusters exceeding max_cluster_size).
-/

/-- Minimum of a list of rationals, 0 on the empty list (clusters are never
empty where this is used, mirroring x.min(axis=0) in _build_info). -/
def listMinD : List ℚ → ℚ
  | [] => 0
  | a :: t => t.foldl min a

/-- Maximum of a list of rationals, 0 on the empty list. -/
def listMaxD : List ℚ → ℚ
  | [] => 0
  | a :: t => t.foldl max a

/-- The UniformSpread operator state after construction: canonical (M, D)
support points, lattice specifier (start/stop/num per axis), separable kernel
with per-axis support radii, and the two tunables from kwargs. -/
structure UniformSpread (D : ℕ) where
  M : ℕ
  x : ℕ → Fin D → ℚ
  start : Fin D → ℚ
  stop : Fin D → ℚ
  num : Fin D → ℕ
  phi : Fin D → ℚ → ℚ
  support : Fin D → ℚ
  max_cluster_size : ℤ
  max_window_ratio : ℚ

/-- Conjunction of the constructor assertions of UniformSpread.__init__:
per-axis start ≤ stop, count ≥ 1 for a proper axis, count = 1 for a
degenerate axis, positive kernel supports, positive max_cluster_size and
max_window_ratio ≥ 3. -/
def constructOk {D : ℕ} (op : UniformSpread D) : Prop :=
  (∀ d, op.start d ≤ op.stop d ∧
    (op.start d < op.stop d → 1 ≤ op.num d) ∧
    (op.start d = op.stop d → op.num d = 1)) ∧
  (∀ d, 0 < op.support d) ∧
  0 < op.max_cluster_size ∧ 3 ≤ op.max_window_ratio

instance constructOkDec {D : ℕ} (op : UniformSpread D) : Decidable (constructOk op) := by
  unfold constructOk; infer_instance

/-- Kernel contract of the spec: each axis kernel vanishes outside its
declared symmetric support radius. -/
def kernelSupported {D : ℕ} (op : UniformSpread D) : Prop :=
  ∀ (d : Fin D) (t : ℚ), op.support d < |t| → op.phi d t = 0

/-- A support point is active when its kernel support box can intersect the
lattice: start - s ≤ x ≤ stop + s on every axis (_build_info, line 493). -/
def active {D : ℕ} (op : UniformSpread D) (m : ℕ) : Prop :=
  ∀ d, op.start d - op.support d ≤ op.x m d ∧ op.x m d ≤ op.stop d + op.support d

instance activeDec {D : ℕ} (op : UniformSpread D) (m : ℕ) : Decidable (active op m) := by
  unfold active; infer_instance

/-- Indices of active support points, in increasing order
(np.flatnonzero(active) in _build_info). -/
def activeIdx {D : ℕ} (op : UniformSpread D) : List ℕ :=
  (List.range op.M).filter fun m => decide (active op m)

/-- Modelled from the spec: cell id of a point on the coarse bucketing grid of
pyxu.math.cluster.grid_cluster (cells of size 2 s max_window_ratio per axis,
spec section 4.2 step 2). -/
def cellKey {D : ℕ} (op : UniformSpread D) (m : ℕ) (d : Fin D) : ℤ :=
  ⌊op.x m d / (2 * op.support d * op.max_window_ratio)⌋

/-- Modelled from the spec: pyxu.math.cluster.grid_cluster is not in the
sources at hand; each nonempty cell of the coarse grid becomes one cluster,
here realised by grouping the point list by cell id. -/
def grid_cluster {D : ℕ} (op : UniformSpread D) : List ℕ → List (List ℕ)
  | [] => []
  | m :: rest =>
      (m :: rest.filter fun m2 => decide (cellKey op m2 = cellKey op m)) ::
        grid_cluster op (rest.filter fun m2 => !decide (cellKey op m2 = cellKey op m))
termination_by l => l.length
decreasing_by
  simp only [List.length_cons]
  exact Nat.lt_succ_of_le (List.length_filter_le _ _)

/-- Per-axis coordinate extent of a cluster of points. -/
def extent {D : ℕ} (op : UniformSpread D) (cl : List ℕ) (d : Fin D) : ℚ :=
  listMaxD (cl.map fun m => op.x m d) - listMinD (cl.map fun m => op.x m d)

/-- Axis of largest extent of a cluster (none only when D = 0). -/
def longestAxis {D : ℕ} (op : UniformSpread D) (cl : List ℕ) : Option (Fin D) :=
  (List.finRange D).argmax fun d => extent op cl d

/-- Sort a cluster by coordinate along its longest axis. -/
def sortAlong {D : ℕ} (op : UniformSpread D) (cl : List ℕ) : List ℕ :=
  match longestAxis op cl with
  | none => cl
  | some d0 => cl.insertionSort fun m1 m2 => op.x m1 d0 ≤ op.x m2 d0

/-- Modelled from the spec: pyxu.math.cluster.bisect_cluster is not in the
sources at hand; any cluster exceeding max_cluster_size points is split at the
median along its longest axis, recursively, until all clusters satisfy the
cap (spec section 4.2 step 3). -/
def bisect_cluster {D : ℕ} (op : UniformSpread D) (cl : List ℕ) : List (List ℕ) :=
  if h : 2 ≤ cl.length ∧ op.max_cluster_size < (cl.length : ℤ) then
    bisect_cluster op ((sortAlong op cl).take (cl.length / 2)) ++
      bisect_cluster op ((sortAlong op cl).drop (cl.length / 2))
  else [cl]
termination_by cl.length
decreasing_by
  · have hl : (sortAlong op cl).length = cl.length := by
      unfold sortAlong
      cases longestAxis op cl with
      | none => rfl
      | some d0 => exact List.length_insertionSort _ _
    simp only [List.length_take, hl]
    omega
  · have hl : (sortAlong op cl).length = cl.length := by
      unfold sortAlong
      cases longestAxis op cl with
      | none => rfl
      | some d0 => exact List.length_insertionSort _ _
    simp only [List.length_drop, hl]
    omega

/-- Cluster lists of the operator: coarse grid bucketing of the active points
followed by recursive bisection (order of _build_info, lines 501-508). -/
def clusterLists {D : ℕ} (op : UniformSpread D) : List (List ℕ) :=
  ((grid_cluster op (activeIdx op)).map (bisect_cluster op)).flatten

/-- Cluster metadata as stored in _cl_info: member point indices, window
anchor and window extent on the global lattice. -/
structure Cluster (D : ℕ) where
  x_idx : List ℕ
  z_anchor : Fin D → ℕ
  z_num : Fin D → ℕ
deriving DecidableEq

/-- The ratio array of _build_info (line 521): N - 1 where the axis is
degenerate, (N - 1)/(stop - start) otherwise. -/
def ratio {D : ℕ} (op : UniformSpread D) (d : Fin D) : ℚ :=
  if 1 < op.num d then ((op.num d : ℚ) - 1) / (op.stop d - op.start d)
  else ((op.num d : ℚ) - 1)

/-- Off-grid lower-left boundary of a cluster after spreading:
min of member coordinates minus the support radius (_build_info line 515). -/
def clusterLL {D : ℕ} (op : UniformSpread D) (cl : List ℕ) (d : Fin D) : ℚ :=
  listMinD (cl.map fun m => op.x m d) - op.support d

/-- Off-grid upper-right boundary of a cluster after spreading. -/
def clusterUR {D : ℕ} (op : UniformSpread D) (cl : List ℕ) (d : Fin D) : ℚ :=
  listMaxD (cl.map fun m => op.x m d) + op.support d

/-- Gridded window bounds of _build_info, lines 518-532: LL_idx clipped below
by 0 as integer (np.fmax(0, floor(...)) then cast), UR_idx clipped above by
N - 1, anchor LL_idx and extent UR_idx - LL_idx + 1. -/
def mkCluster {D : ℕ} (op : UniformSpread D) (cl : List ℕ) : Cluster D :=
  { x_idx := cl
    z_anchor := fun d =>
      (max 0 ⌊(clusterLL op cl d - op.start d) * ratio op d⌋).toNat
    z_num := fun d =>
      (min ⌈(clusterUR op cl d - op.start d) * ratio op d⌉ ((op.num d : ℤ) - 1) -
        max 0 ⌊(clusterLL op cl d - op.start d) * ratio op d⌋ + 1).toNat }

/-- Acceleration metadata built at construction (_build_info): one Cluster
record per final cluster. -/
def cl_info {D : ℕ} (op : UniformSpread D) : List (Cluster D) :=
  (clusterLists op).map (mkCluster op)

/-- Lattice step of _lattice (line 574): 0 on a degenerate axis,
(stop - start)/(N - 1) otherwise. -/
def step {D : ℕ} (op : UniformSpread D) (d : Fin D) : ℚ :=
  if op.num d = 1 then 0 else (op.stop d - op.start d) / ((op.num d : ℚ) - 1)

/-- Lattice node coordinate on axis d at integer index j:
start + j * step (_lattice line 576). -/
def zc {D : ℕ} (op : UniformSpread D) (j : ℕ) (d : Fin D) : ℚ :=
  op.start d + j * step op d

/-- Index of the first nonzero entry of a list, its length if none. -/
def firstNZ : List ℚ → ℕ
  | [] => 0
  | a :: t => if a = 0 then firstNZ t + 1 else 0

/-- The generated find_bounds routine: indices a, b such that the slice from a
to b contains the nonzero segment of the list; both equal the length when the
list is all zero. -/
def find_bounds (l : List ℚ) : ℕ × ℕ :=
  (firstNZ l,
    if firstNZ l.reverse = l.length then l.length else l.length - firstNZ l.reverse)

/-- Per-point per-axis kernel weight row of _spread and _interpolate
(lines 626-628): the axis kernel evaluated on the window coordinates minus
the point coordinate. -/
def krow {D : ℕ} (op : UniformSpread D) (c : Cluster D) (m : ℕ) (d : Fin D) : List ℚ :=
  (List.range (c.z_num d)).map fun j =>
    op.phi d (zc op (c.z_anchor d + j) d - op.x m d)

/-- Entry of the padded kernel array: the kernel row at offset j, 0 beyond the
window extent. -/
def kval {D : ℕ} (op : UniformSpread D) (c : Cluster D) (m : ℕ) (d : Fin D) (j : ℕ) : ℚ :=
  (krow op c m d).getD j 0

/-- Lower trim bound of the scatter/gather loops for one point and axis. -/
def lbnd {D : ℕ} (op : UniformSpread D) (c : Cluster D) (m : ℕ) (d : Fin D) : ℕ :=
  (find_bounds (krow op c m d)).1

/-- Upper trim bound of the scatter/gather loops for one point and axis. -/
def ubnd {D : ℕ} (op : UniformSpread D) (c : Cluster D) (m : ℕ) (d : Fin D) : ℕ :=
  (find_bounds (krow op c m d)).2

/-- The D-dimensional trimmed offset box traversed by f_spread and
f_interpolate for one point: the product of the per-axis nonzero ranges. -/
def trimBox {D : ℕ} (op : UniformSpread D) (c : Cluster D) (m : ℕ) :
    Finset (Fin D → ℕ) :=
  Fintype.piFinset fun d => Finset.Ico (lbnd op c m d) (ubnd op c m d)

/-- The full window offset box of a cluster. -/
def fullBox {D : ℕ} (c : Cluster D) : Finset (Fin D → ℕ) :=
  Fintype.piFinset fun d => Finset.range (c.z_num d)

/-- Joint kernel weight at a window offset: product of the axis weights
(the k accumulator of the generated loops). -/
def kprod {D : ℕ} (op : UniformSpread D) (c : Cluster D) (m : ℕ)
    (rel : Fin D → ℕ) : ℚ :=
  ∏ d, kval op c m d (rel d)

/-- Global lattice index of a window offset: anchor plus offset. -/
def addA {D : ℕ} (c : Cluster D) (rel : Fin D → ℕ) : Fin D → ℕ :=
  fun d => c.z_anchor d + rel d

/-- Contribution of one cluster to the global lattice buffer (_spread plus the
f_spread scatter loop): for each member point, each trimmed offset writes the
joint kernel weight times the point weight at anchor + offset. -/
def clSpread {D : ℕ} (op : UniformSpread D) (c : Cluster D) (w : ℕ → ℚ)
    (n : Fin D → ℕ) : ℚ :=
  (c.x_idx.map fun m =>
    ∑ rel ∈ trimBox op c m,
      if n = addA c rel then kprod op c m rel * w m else 0).sum

/-- The apply method (spread direction, in-memory path): sum of all cluster
contributions into the zero-initialised global buffer. -/
def applyOp {D : ℕ} (op : UniformSpread D) (w : ℕ → ℚ) (n : Fin D → ℕ) : ℚ :=
  ((cl_info op).map fun c => clSpread op c w n).sum

/-- Weight gathered at one member point of a cluster (_interpolate plus the
f_interpolate gather loop). -/
def interpVal {D : ℕ} (op : UniformSpread D) (c : Cluster D)
    (v : (Fin D → ℕ) → ℚ) (m : ℕ) : ℚ :=
  ∑ rel ∈ trimBox op c m, kprod op c m rel * v (addA c rel)

/-- Slot assignment of one cluster in the adjoint direction
(out[..., x_idx] = w, line 732). -/
def adjStep {D : ℕ} (op : UniformSpread D) (v : (Fin D → ℕ) → ℚ)
    (out : ℕ → ℚ) (c : Cluster D) : ℕ → ℚ :=
  fun m => if m ∈ c.x_idx then interpVal op c v m else out m

/-- The adjoint method (interpolate direction, in-memory path): each cluster
assigns the slots of its member points in the zero-initialised output. -/
def adjointOp {D : ℕ} (op : UniformSpread D) (v : (Fin D → ℕ) → ℚ) : ℕ → ℚ :=
  (cl_info op).foldl (adjStep op v) fun _ => 0

/-- Entry of the dense matrix materialised by asarray (lines 410-416):
product over axes of the axis kernel at lattice coordinate minus point
coordinate. -/
def denseEntry {D : ℕ} (op : UniformSpread D) (n : Fin D → ℕ) (m : ℕ) : ℚ :=
  ∏ d, op.phi d (zc op (n d) d - op.x m d)

/-- The finite set of multi-indices of the global lattice. -/
def latFinset {D : ℕ} (op : UniformSpread D) : Finset (Fin D → ℕ) :=
  Fintype.piFinset fun d => Finset.range (op.num d)

/-- Reference dense spread: the asarray matrix applied to a weight vector. -/
def denseApply {D : ℕ} (op : UniformSpread D) (w : ℕ → ℚ) (n : Fin D → ℕ) : ℚ :=
  ∑ m ∈ Finset.range op.M, denseEntry op n m * w m

/-- Reference dense interpolation: the transposed asarray matrix applied to a
lattice-value array. -/
def denseAdjoint {D : ℕ} (op : UniformSpread D) (v : (Fin D → ℕ) → ℚ) (m : ℕ) : ℚ :=
  ∑ n ∈ latFinset op, denseEntry op n m * v n

/-- Inner product of two lattice-value arrays. -/
def innerLat {D : ℕ} (op : UniformSpread D) (u v : (Fin D → ℕ) → ℚ) : ℚ :=
  ∑ n ∈ latFinset op, u n * v n

/-- Inner product of two weight vectors of length M. -/
def innerPts (M : ℕ) (w u : ℕ → ℚ) : ℚ :=
  ∑ m ∈ Finset.range M, w m * u m

/-- Window anchor as the spec sentence describes it (section 4.2 step 4):
nearest-integer rounding of (coord - start)/step, clipped to the lattice. -/
def specRoundAnchor {D : ℕ} (op : UniformSpread D) (cl : List ℕ) (d : Fin D) : ℤ :=
  min (max 0 (round ((clusterLL op cl d - op.start d) / step op d))) ((op.num d : ℤ) - 1)

/-- Floating-point width tags of the two supported dtypes. -/
inductive DType
  | f32
  | f64
deriving DecidableEq

/-- The _cast_warn helper (lines 425-433), over any array value type: pass
the input through unchanged when its dtype matches the bound dtype, otherwise
cast it and report a warning exactly when warnings are enabled. The Bool
component records whether a PrecisionWarning was emitted. -/
def cast_warn {V : Type} (bound : DType) (enable : Bool) (castf : V → V)
    (dt : DType) (arr : V) : (DType × V) × Bool :=
  if dt = bound then ((dt, arr), false) else ((bound, castf arr), enable)

/-- An apply call on a dtype-tagged weight vector (lines 225-238): _cast_warn,
then the numeric core on the cast values; returns the result together with
the warning flag. -/
def applyCall {D : ℕ} (op : UniformSpread D) (bound : DType) (enable : Bool)
    (castf : (ℕ → ℚ) → (ℕ → ℚ)) (dt : DType) (arr : ℕ → ℚ) :
    ((Fin D → ℕ) → ℚ) × Bool :=
  ((applyOp op (cast_warn bound enable castf dt arr).1.2),
    (cast_warn bound enable castf dt arr).2)

/-- An adjoint call on a dtype-tagged lattice-value array (lines 320-333):
the same _cast_warn step, then the interpolate core on the cast values;
returns the result together with the warning flag. -/
def adjointCall {D : ℕ} (op : UniformSpread D) (bound : DType) (enable : Bool)
    (castv : ((Fin D → ℕ) → ℚ) → ((Fin D → ℕ) → ℚ)) (dt : DType)
    (arr : (Fin D → ℕ) → ℚ) : (ℕ → ℚ) × Bool :=
  ((adjointOp op (cast_warn bound enable castv dt arr).1.2),
    (cast_warn bound enable castv dt arr).2)

/-- A rectangular numpy array of rationals, as nested lists. -/
inductive NDArr
  | scal (v : ℚ)
  | arr (l : List NDArr)

/-- Number of dimensions of an array (nesting depth; an empty array has
ndim 1 like np.array([])). -/
def ndim : NDArr → ℕ
  | .scal _ => 0
  | .arr [] => 1
  | .arr (e :: _) => ndim e + 1

/-- Scalar elements of a list of entries, none when an entry is not scalar. -/
def vecElems : List NDArr → Option (List ℚ)
  | [] => some []
  | .scal v :: t => (vecElems t).map fun r => v :: r
  | .arr _ :: _ => none

/-- Extract a rank-1 array as a vector of scalars. -/
def toVec : NDArr → Option (List ℚ)
  | .arr l => vecElems l
  | .scal _ => none

/-- Row vectors of a list of entries, none when a row is not rank 1. -/
def matRows : List NDArr → Option (List (List ℚ))
  | [] => some []
  | e :: t =>
      match toVec e, matRows t with
      | some r, some rs => some (r :: rs)
      | _, _ => none

/-- Extract a rank-2 array as a list of rows. -/
def toMat : NDArr → Option (List (List ℚ))
  | .arr l => matRows l
  | .scal _ => none

/-- Canonicalisation of the points argument in __init__ (lines 161-163):
a rank-1 array of length M becomes the (M, 1) matrix x[:, np.newaxis], a
rank-2 array is taken as is, anything else fails the ndim assertion. -/
def canonPoints (a : NDArr) : Option (List (List ℚ)) :=
  if ndim a = 1 then (toVec a).map (List.map fun v => [v])
  else if ndim a = 2 then toMat a
  else none

/-- Concrete operator of the spec test scenario: D = 1, triangular kernel of
support radius 1, lattice start 0 stop 4 num 5, points 0.5 and 2.5. -/
def exOp : UniformSpread 1 where
  M := 2
  x := fun m _ => if m = 0 then 1/2 else 5/2
  start := fun _ => 0
  stop := fun _ => 4
  num := fun _ => 5
  phi := fun _ t => max 0 (1 - |t|)
  support := fun _ => 1
  max_cluster_size := 10000
  max_window_ratio := 100

/-- Concrete operator with one active point and one point far outside the
lattice bounding box. -/
def exOut : UniformSpread 1 where
  M := 2
  x := fun m _ => if m = 0 then 2 else 100
  start := fun _ => 0
  stop := fun _ => 4
  num := fun _ => 5
  phi := fun _ t => max 0 (1 - |t|)
  support := fun _ => 1
  max_cluster_size := 10000
  max_window_ratio := 100

/-- Concrete operator whose single point at 8/5 yields a window anchor where
floor-based gridding and nearest-integer rounding disagree. -/
def exRound : UniformSpread 1 where
  M := 1
  x := fun _ _ => 8/5
  start := fun _ => 0
  stop := fun _ => 4
  num := fun _ => 5
  phi := fun _ t => max 0 (1 - |t|)
  support := fun _ => 1
  max_cluster_size := 10000
  max_window_ratio := 100

/-- Lattice axis with one node but start strictly below stop: accepted by the
constructor assertions. -/
def exOne : UniformSpread 1 where
  M := 0
  x := fun _ _ => 0
  start := fun _ => 0
  stop := fun _ => 1
  num := fun _ => 1
  phi := fun _ _ => 0
  support := fun _ => 1
  max_cluster_size := 1
  max_window_ratio := 3

/-- Lattice axis with zero nodes on a proper axis: rejected by the
constructor assertions. -/
def exZero : UniformSpread 1 where
  M := 0
  x := fun _ _ => 0
  start := fun _ => 0
  stop := fun _ => 1
  num := fun _ => 0
  phi := fun _ _ => 0
  support := fun _ => 1
  max_cluster_size := 1
  max_window_ratio := 3

/-! ### List minimum / maximum facts -/

theorem foldl_min_le_init (t : List ℚ) (a : ℚ) : t.foldl min a ≤ a := by
  induction t generalizing a with
  | nil => exact le_refl a
  | cons c t ih => exact le_trans (ih (min a c)) (min_le_left a c)

theorem foldl_min_le_mem {t : List ℚ} {b : ℚ} (hb : b ∈ t) (a : ℚ) :
    t.foldl min a ≤ b := by
  induction t generalizing a with
  | nil => cases hb
  | cons c t ih =>
    rcases List.mem_cons.mp hb with h | h
    · subst h
      exact le_trans (foldl_min_le_init t (min a b)) (min_le_right a b)
    · exact ih h (min a c)

theorem le_foldl_min {t : List ℚ} {c : ℚ} (h : ∀ b ∈ t, c ≤ b) {a : ℚ} (ha : c ≤ a) :
    c ≤ t.foldl min a := by
  induction t generalizing a with
  | nil => exact ha
  | cons x t ih =>
    exact ih (fun b hb => h b (List.mem_cons_of_mem x hb))
      (le_min ha (h x (List.mem_cons_self x t)))

theorem init_le_foldl_max (t : List ℚ) (a : ℚ) : a ≤ t.foldl max a := by
  induction t generalizing a with
  | nil => exact le_refl a
  | cons c t ih => exact le_trans (le_max_left a c) (ih (max a c))

theorem mem_le_foldl_max {t : List ℚ} {b : ℚ} (hb : b ∈ t) (a : ℚ) :
    b ≤ t.foldl max a := by
  induction t generalizing a with
  | nil => cases hb
  | cons c t ih =>
    rcases List.mem_cons.mp hb with h | h
    · subst h
      exact le_trans (le_max_right a b) (init_le_foldl_max t (max a b))
    · exact ih h (max a c)

theorem foldl_max_le {t : List ℚ} {c : ℚ} (h : ∀ b ∈ t, b ≤ c) {a : ℚ} (ha : a ≤ c) :
    t.foldl max a ≤ c := by
  induction t generalizing a with
  | nil => exact ha
  | cons x t ih =>
    exact ih (fun b hb => h b (List.mem_cons_of_mem x hb))
      (max_le ha (h x (List.mem_cons_self x t)))

theorem listMinD_le {l : List ℚ} {b : ℚ} (hb : b ∈ l) : listMinD l ≤ b := by
  cases l with
  | nil => cases hb
  | cons a t =>
    rcases List.mem_cons.mp hb with h | h
    · subst h; exact foldl_min_le_init t b
    · exact foldl_min_le_mem h a

theorem le_listMinD {l : List ℚ} {c : ℚ} (hne : l ≠ []) (h : ∀ b ∈ l, c ≤ b) :
    c ≤ listMinD l := by
  cases l with
  | nil => exact absurd rfl hne
  | cons a t =>
    exact le_foldl_min (fun b hb => h b (List.mem_cons_of_mem a hb))
      (h a (List.mem_cons_self a t))

theorem le_listMaxD {l : List ℚ} {b : ℚ} (hb : b ∈ l) : b ≤ listMaxD l := by
  cases l with
  | nil => cases hb
  | cons a t =>
    rcases List.mem_cons.mp hb with h | h
    · subst h; exact init_le_foldl_max t b
    · exact mem_le_foldl_max h a

theorem listMaxD_le {l : List ℚ} {c : ℚ} (hne : l ≠ []) (h : ∀ b ∈ l, b ≤ c) :
    listMaxD l ≤ c := by
  cases l with
  | nil => exact absurd rfl hne
  | cons a t =>
    exact foldl_max_le (fun b hb => h b (List.mem_cons_of_mem a hb))
      (h a (List.mem_cons_self a t))

theorem listMinD_le_listMaxD {l : List ℚ} (hne : l ≠ []) : listMinD l ≤ listMaxD l := by
  cases l with
  | nil => exact absurd rfl hne
  | cons a t =>
    exact le_trans (foldl_min_le_init t a) (init_le_foldl_max t a)

/-! ### find_bounds facts -/

theorem firstNZ_le_length (l : List ℚ) : firstNZ l ≤ l.length := by
  induction l with
  | nil => exact le_refl 0
  | cons a t ih =>
    simp only [firstNZ, List.length_cons]
    by_cases h : a = 0
    · simp only [if_pos h]; omega
    · simp only [if_neg h]; omega

theorem getD_eq_zero_of_lt_firstNZ {l : List ℚ} {j : ℕ} (hj : j < firstNZ l) :
    l.getD j 0 = 0 := by
  induction l generalizing j with
  | nil => simp [List.getD]
  | cons a t ih =>
    by_cases h : a = 0
    · cases j with
      | zero => simpa using h
      | succ j =>
        simp only [firstNZ, if_pos h] at hj
        exact ih (by omega)
    · simp [firstNZ, if_neg h] at hj

theorem find_bounds_snd_le (l : List ℚ) : (find_bounds l).2 ≤ l.length := by
  simp only [find_bounds]
  by_cases h : firstNZ l.reverse = l.length
  · simp [h]
  · simp only [if_neg h]; omega

theorem find_bounds_fst_le (l : List ℚ) : (find_bounds l).1 ≤ l.length :=
  firstNZ_le_length l

theorem getD_eq_zero_of_lt_fst {l : List ℚ} {j : ℕ} (hj : j < (find_bounds l).1) :
    l.getD j 0 = 0 :=
  getD_eq_zero_of_lt_firstNZ hj

theorem getD_eq_zero_of_snd_le {l : List ℚ} {j : ℕ} (hj : (find_bounds l).2 ≤ j) :
    l.getD j 0 = 0 := by
  by_cases hlen : j < l.length
  · simp only [find_bounds] at hj
    by_cases h : firstNZ l.reverse = l.length
    · rw [if_pos h] at hj; omega
    · rw [if_neg h] at hj
      have hrl : firstNZ l.reverse ≤ l.length := by
        have := firstNZ_le_length l.reverse
        simpa using this
      have h1 : l.length - 1 - j < firstNZ l.reverse := by omega
      have h2 : l.reverse.getD (l.length - 1 - j) 0 = 0 :=
        getD_eq_zero_of_lt_firstNZ h1
      have h3 : l.length - 1 - j < l.reverse.length := by
        simp only [List.length_reverse]; omega
      rw [List.getD_eq_getElem _ _ h3] at h2
      rw [List.getD_eq_getElem _ _ hlen]
      rw [← h2]
      rw [List.getElem_reverse]
      congr 1
      omega
  · exact List.getD_eq_default _ _ (by omega)

/-! ### Kernel row and trim box facts -/

theorem krow_length {D : ℕ} (op : UniformSpread D) (c : Cluster D) (m : ℕ) (d : Fin D) :
    (krow op c m d).length = c.z_num d := by
  simp [krow]

theorem kval_eq_phi {D : ℕ} (op : UniformSpread D) (c : Cluster D) (m : ℕ) (d : Fin D)
    {j : ℕ} (hj : j < c.z_num d) :
    kval op c m d j = op.phi d (zc op (c.z_anchor d + j) d - op.x m d) := by
  have hjl : j < (krow op c m d).length := by rw [krow_length]; exact hj
  rw [kval, List.getD_eq_getElem _ _ hjl]
  simp [krow]

theorem ubnd_le_z_num {D : ℕ} (op : UniformSpread D) (c : Cluster D) (m : ℕ) (d : Fin D) :
    ubnd op c m d ≤ c.z_num d := by
  have := find_bounds_snd_le (krow op c m d)
  rwa [krow_length] at this

theorem trimBox_subset_fullBox {D : ℕ} (op : UniformSpread D) (c : Cluster D) (m : ℕ) :
    trimBox op c m ⊆ fullBox c := by
  intro f hf
  rw [trimBox, Fintype.mem_piFinset] at hf
  rw [fullBox, Fintype.mem_piFinset]
  intro d
  have := hf d
  rw [Finset.mem_Ico] at this
  rw [Finset.mem_range]
  exact lt_of_lt_of_le this.2 (ubnd_le_z_num op c m d)

theorem kprod_eq_zero_of_notin_trim {D : ℕ} (op : UniformSpread D) (c : Cluster D)
    (m : ℕ) {rel : Fin D → ℕ} (hnt : rel ∉ trimBox op c m) :
    kprod op c m rel = 0 := by
  rw [trimBox, Fintype.mem_piFinset] at hnt
  push_neg at hnt
  obtain ⟨d, hd⟩ := hnt
  rw [Finset.mem_Ico] at hd
  push_neg at hd
  have hz : kval op c m d (rel d) = 0 := by
    by_cases hlt : rel d < lbnd op c m d
    · exact getD_eq_zero_of_lt_fst hlt
    · exact getD_eq_zero_of_snd_le (hd (by omega))
  exact Finset.prod_eq_zero (Finset.mem_univ d) hz

theorem sum_trim_eq_sum_full {D : ℕ} (op : UniformSpread D) (c : Cluster D) (m : ℕ)
    (g : (Fin D → ℕ) → ℚ) :
    ∑ rel ∈ trimBox op c m, kprod op c m rel * g rel =
      ∑ rel ∈ fullBox c, kprod op c m rel * g rel := by
  refine Finset.sum_subset (trimBox_subset_fullBox op c m) ?_
  intro rel _ hnt
  rw [kprod_eq_zero_of_notin_trim op c m hnt, zero_mul]

/-! ### Partition facts of the clustering -/

theorem sortAlong_perm {D : ℕ} (op : UniformSpread D) (cl : List ℕ) :
    List.Perm (sortAlong op cl) cl := by
  unfold sortAlong
  cases longestAxis op cl with
  | none => exact List.Perm.refl cl
  | some d0 => exact List.perm_insertionSort _ cl

theorem sortAlong_length {D : ℕ} (op : UniformSpread D) (cl : List ℕ) :
    (sortAlong op cl).length = cl.length :=
  (sortAlong_perm op cl).length_eq

theorem grid_cluster_flatten_perm_aux {D : ℕ} (op : UniformSpread D) :
    ∀ (fuel : ℕ) (l : List ℕ), l.length ≤ fuel →
      List.Perm (grid_cluster op l).flatten l := by
  intro fuel
  induction fuel with
  | zero =>
    intro l hl
    have hnil : l = [] := List.eq_nil_of_length_eq_zero (by omega)
    subst hnil
    simp [grid_cluster]
  | succ fuel ih =>
    intro l hl
    match l with
    | [] => simp [grid_cluster]
    | m :: rest =>
      have hlen : (rest.filter fun m2 => !decide (cellKey op m2 = cellKey op m)).length ≤ fuel := by
        have := List.length_filter_le
          (fun m2 => !decide (cellKey op m2 = cellKey op m)) rest
        simp only [List.length_cons] at hl
        omega
      have hperm := ih _ hlen
      rw [grid_cluster]
      simp only [List.flatten_cons, List.cons_append]
      exact ((List.Perm.append_left _ hperm).trans
        (List.filter_append_perm _ rest)).cons m

theorem grid_cluster_flatten_perm {D : ℕ} (op : UniformSpread D) (l : List ℕ) :
    List.Perm (grid_cluster op l).flatten l :=
  grid_cluster_flatten_perm_aux op l.length l (le_refl _)

theorem grid_cluster_ne_nil_aux {D : ℕ} (op : UniformSpread D) :
    ∀ (fuel : ℕ) (l : List ℕ), l.length ≤ fuel →
      ∀ cl ∈ grid_cluster op l, cl ≠ [] := by
  intro fuel
  induction fuel with
  | zero =>
    intro l hl
    have hnil : l = [] := List.eq_nil_of_length_eq_zero (by omega)
    subst hnil
    simp [grid_cluster]
  | succ fuel ih =>
    intro l hl cl hcl
    match l with
    | [] => simp [grid_cluster] at hcl
    | m :: rest =>
      rw [grid_cluster] at hcl
      rcases List.mem_cons.mp hcl with h | h
      · subst h; exact List.cons_ne_nil _ _
      · have hlen : (rest.filter fun m2 => !decide (cellKey op m2 = cellKey op m)).length ≤ fuel := by
          have := List.length_filter_le
            (fun m2 => !decide (cellKey op m2 = cellKey op m)) rest
          simp only [List.length_cons] at hl
          omega
        exact ih _ hlen cl h

theorem grid_cluster_ne_nil {D : ℕ} (op : UniformSpread D) (l : List ℕ)
    {cl : List ℕ} (hcl : cl ∈ grid_cluster op l) : cl ≠ [] :=
  grid_cluster_ne_nil_aux op l.length l (le_refl _) cl hcl

theorem bisect_flatten_perm_aux {D : ℕ} (op : UniformSpread D) :
    ∀ (fuel : ℕ) (cl : List ℕ), cl.length ≤ fuel →
      List.Perm (bisect_cluster op cl).flatten cl := by
  intro fuel
  induction fuel with
  | zero =>
    intro cl hcl
    have hnil : cl = [] := List.eq_nil_of_length_eq_zero (by omega)
    subst hnil
    rw [bisect_cluster]
    simp
  | succ fuel ih =>
    intro cl hcl
    rw [bisect_cluster]
    by_cases h : 2 ≤ cl.length ∧ op.max_cluster_size < (cl.length : ℤ)
    · rw [dif_pos h]
      have hs := sortAlong_length op cl
      have h1 : ((sortAlong op cl).take (cl.length / 2)).length ≤ fuel := by
        simp only [List.length_take, hs]; omega
      have h2 : ((sortAlong op cl).drop (cl.length / 2)).length ≤ fuel := by
        simp only [List.length_drop, hs]; omega
      rw [List.flatten_append]
      exact ((List.Perm.append (ih _ h1) (ih _ h2)).trans
        (by rw [List.take_append_drop])).trans (sortAlong_perm op cl)
    · rw [dif_neg h]
      simp

theorem bisect_flatten_perm {D : ℕ} (op : UniformSpread D) (cl : List ℕ) :
    List.Perm (bisect_cluster op cl).flatten cl :=
  bisect_flatten_perm_aux op cl.length cl (le_refl _)

theorem bisect_ne_nil_aux {D : ℕ} (op : UniformSpread D) :
    ∀ (fuel : ℕ) (cl : List ℕ), cl.length ≤ fuel → cl ≠ [] →
      ∀ c ∈ bisect_cluster op cl, c ≠ [] := by
  intro fuel
  induction fuel with
  | zero =>
    intro cl hcl hne
    have hnil : cl = [] := List.eq_nil_of_length_eq_zero (by omega)
    exact absurd hnil hne
  | succ fuel ih =>
    intro cl hcl hne c hc
    rw [bisect_cluster] at hc
    by_cases h : 2 ≤ cl.length ∧ op.max_cluster_size < (cl.length : ℤ)
    · rw [dif_pos h] at hc
      have hs := sortAlong_length op cl
      rcases List.mem_append.mp hc with hm | hm
      · refine ih _ ?_ ?_ c hm
        · simp only [List.length_take, hs]; omega
        · have : ((sortAlong op cl).take (cl.length / 2)).length ≠ 0 := by
            simp only [List.length_take, hs]; omega
          intro hni; rw [hni] at this; simp at this
      · refine ih _ ?_ ?_ c hm
        · simp only [List.length_drop, hs]; omega
        · have : ((sortAlong op cl).drop (cl.length / 2)).length ≠ 0 := by
            simp only [List.length_drop, hs]; omega
          intro hni; rw [hni] at this; simp at this
    · rw [dif_neg h] at hc
      rcases List.mem_singleton.mp hc with h
      subst h; exact hne

theorem bisect_ne_nil {D : ℕ} (op : UniformSpread D) {cl : List ℕ} (hne : cl ≠ [])
    {c : List ℕ} (hc : c ∈ bisect_cluster op cl) : c ≠ [] :=
  bisect_ne_nil_aux op cl.length cl (le_refl _) hne c hc

theorem map_bisect_flatten_perm {D : ℕ} (op : UniformSpread D) (L : List (List ℕ)) :
    List.Perm ((L.map (bisect_cluster op)).flatten).flatten L.flatten := by
  induction L with
  | nil => simp
  | cons c L ih =>
    simp only [List.map_cons, List.flatten_cons, List.flatten_append]
    exact List.Perm.append (bisect_flatten_perm op c) ih

theorem clusterLists_flatten_perm {D : ℕ} (op : UniformSpread D) :
    List.Perm (clusterLists op).flatten (activeIdx op) :=
  (map_bisect_flatten_perm op (grid_cluster op (activeIdx op))).trans
    (grid_cluster_flatten_perm op (activeIdx op))

theorem clusterLists_ne_nil {D : ℕ} (op : UniformSpread D) {cl : List ℕ}
    (hcl : cl ∈ clusterLists op) : cl ≠ [] := by
  rw [clusterLists, List.mem_flatten] at hcl
  obtain ⟨b, hb, hclb⟩ := hcl
  rw [List.mem_map] at hb
  obtain ⟨g, hg, hbg⟩ := hb
  subst hbg
  exact bisect_ne_nil op (grid_cluster_ne_nil op _ hg) hclb

theorem mem_activeIdx {D : ℕ} (op : UniformSpread D) (m : ℕ) :
    m ∈ activeIdx op ↔ m < op.M ∧ active op m := by
  simp [activeIdx, List.mem_filter, List.mem_range]

theorem activeIdx_nodup {D : ℕ} (op : UniformSpread D) : (activeIdx op).Nodup :=
  List.Nodup.filter _ (List.nodup_range _)

theorem activeIdx_count {D : ℕ} (op : UniformSpread D) (m : ℕ) :
    (activeIdx op).count m = if m < op.M ∧ active op m then 1 else 0 := by
  by_cases h : m < op.M ∧ active op m
  · rw [if_pos h]
    exact List.count_eq_one_of_mem (activeIdx_nodup op) ((mem_activeIdx op m).mpr h)
  · rw [if_neg h]
    exact List.count_eq_zero_of_not_mem fun hm => h ((mem_activeIdx op m).mp hm)

theorem mem_of_mem_clusterLists {D : ℕ} (op : UniformSpread D) {cl : List ℕ}
    (hcl : cl ∈ clusterLists op) {m : ℕ} (hm : m ∈ cl) : m ∈ activeIdx op := by
  have hfl : m ∈ (clusterLists op).flatten := List.mem_flatten.mpr ⟨cl, hcl, hm⟩
  exact (clusterLists_flatten_perm op).mem_iff.mp hfl

theorem cl_info_map_x_idx {D : ℕ} (op : UniformSpread D) :
    (cl_info op).map Cluster.x_idx = clusterLists op := by
  rw [cl_info, List.map_map]
  have hcomp : Cluster.x_idx ∘ mkCluster op = id := rfl
  rw [hcomp, List.map_id]

theorem cl_count {D : ℕ} (op : UniformSpread D) (m : ℕ) :
    (((cl_info op).map Cluster.x_idx).flatten).count m =
      if m < op.M ∧ active op m then 1 else 0 := by
  rw [cl_info_map_x_idx, (clusterLists_flatten_perm op).count_eq]
  exact activeIdx_count op m

theorem cl_info_x_idx_mem {D : ℕ} (op : UniformSpread D) {c : Cluster D}
    (hc : c ∈ cl_info op) : c.x_idx ∈ clusterLists op := by
  rw [← cl_info_map_x_idx]
  exact List.mem_map_of_mem Cluster.x_idx hc

theorem cl_info_members {D : ℕ} (op : UniformSpread D) {c : Cluster D}
    (hc : c ∈ cl_info op) {m : ℕ} (hm : m ∈ c.x_idx) :
    m < op.M ∧ active op m :=
  (mem_activeIdx op m).mp (mem_of_mem_clusterLists op (cl_info_x_idx_mem op hc) hm)

theorem nodup_of_mem_flatten_nodup {L : List (List ℕ)} (hL : L.flatten.Nodup)
    {l : List ℕ} (hl : l ∈ L) : l.Nodup := by
  induction L with
  | nil => cases hl
  | cons c L ih =>
    rw [List.flatten_cons] at hL
    rcases List.mem_cons.mp hl with h | h
    · subst h; exact hL.of_append_left
    · exact ih hL.of_append_right h

theorem cl_info_x_idx_nodup {D : ℕ} (op : UniformSpread D) {c : Cluster D}
    (hc : c ∈ cl_info op) : c.x_idx.Nodup := by
  have hfl : (clusterLists op).flatten.Nodup :=
    ((clusterLists_flatten_perm op).nodup_iff).mpr (activeIdx_nodup op)
  exact nodup_of_mem_flatten_nodup hfl (cl_info_x_idx_mem op hc)

/-! ### Lattice and window geometry -/

theorem num_pos {D : ℕ} {op : UniformSpread D} (h : constructOk op) (d : Fin D) :
    1 ≤ op.num d := by
  obtain ⟨hlat, -, -, -⟩ := h
  obtain ⟨hle, hlt, heq⟩ := hlat d
  rcases lt_or_eq_of_le hle with hc | hc
  · exact hlt hc
  · rw [heq hc]

theorem start_lt_stop_of_num_gt_one {D : ℕ} {op : UniformSpread D} (h : constructOk op)
    {d : Fin D} (hN : 1 < op.num d) : op.start d < op.stop d := by
  obtain ⟨hlat, -, -, -⟩ := h
  obtain ⟨hle, -, heq⟩ := hlat d
  rcases lt_or_eq_of_le hle with hc | hc
  · exact hc
  · rw [heq hc] at hN; omega

theorem step_mul_ratio {D : ℕ} {op : UniformSpread D} (h : constructOk op)
    {d : Fin D} (hN : 1 < op.num d) : step op d * ratio op d = 1 := by
  have hαβ := start_lt_stop_of_num_gt_one h hN
  have h1 : op.stop d - op.start d ≠ 0 := by linarith
  have h2 : ((op.num d : ℚ) - 1) ≠ 0 := by
    have : (1 : ℚ) < (op.num d : ℚ) := by exact_mod_cast hN
    linarith
  rw [step, ratio, if_neg (by omega), if_pos hN]
  field_simp

theorem ratio_pos {D : ℕ} {op : UniformSpread D} (h : constructOk op)
    {d : Fin D} (hN : 1 < op.num d) : 0 < ratio op d := by
  have hαβ := start_lt_stop_of_num_gt_one h hN
  have h2 : (1 : ℚ) < (op.num d : ℚ) := by exact_mod_cast hN
  rw [ratio, if_pos hN]
  exact div_pos (by linarith) (by linarith)

theorem step_pos {D : ℕ} {op : UniformSpread D} (h : constructOk op)
    {d : Fin D} (hN : 1 < op.num d) : 0 < step op d := by
  have hαβ := start_lt_stop_of_num_gt_one h hN
  have h2 : (1 : ℚ) < (op.num d : ℚ) := by exact_mod_cast hN
  rw [step, if_neg (by omega)]
  exact div_pos (by linarith) (by linarith)

theorem zc_mem_range {D : ℕ} {op : UniformSpread D} (h : constructOk op) (d : Fin D)
    {j : ℕ} (hj : j < op.num d) :
    op.start d ≤ zc op j d ∧ zc op j d ≤ op.stop d := by
  have hle : op.start d ≤ op.stop d := (h.1 d).1
  by_cases hN1 : op.num d = 1
  · rw [zc, step, if_pos hN1]
    constructor <;> simp [hle]
  · have hN : 1 < op.num d := by have := num_pos h d; omega
    have hstep := step_pos h hN
    have hNq : (1 : ℚ) < (op.num d : ℚ) := by exact_mod_cast hN
    constructor
    · rw [zc]
      have : 0 ≤ (j : ℚ) * step op d := mul_nonneg (by positivity) (le_of_lt hstep)
      linarith
    · rw [zc, step, if_neg hN1]
      have hjq : (j : ℚ) ≤ (op.num d : ℚ) - 1 := by
        have : (j : ℚ) ≤ (op.num d : ℚ) - 1 ↔ (j : ℚ) + 1 ≤ (op.num d : ℚ) := by
          constructor <;> intro <;> linarith
        rw [this]
        exact_mod_cast hj
      have hq : (j : ℚ) * ((op.stop d - op.start d) / ((op.num d : ℚ) - 1)) ≤
          ((op.num d : ℚ) - 1) * ((op.stop d - op.start d) / ((op.num d : ℚ) - 1)) := by
        apply mul_le_mul_of_nonneg_right hjq
        apply div_nonneg (by linarith) (by linarith)
      have hc : ((op.num d : ℚ) - 1) * ((op.stop d - op.start d) / ((op.num d : ℚ) - 1)) =
          op.stop d - op.start d := by
        rw [mul_div_assoc']
        exact mul_div_cancel_left₀ _ (by linarith)
      rw [hc] at hq
      linarith

theorem window_facts {D : ℕ} {op : UniformSpread D} (h : constructOk op) {cl : List ℕ}
    (hne : cl ≠ []) (hact : ∀ m ∈ cl, active op m) (d : Fin D) :
    ((mkCluster op cl).z_anchor d : ℤ) =
      max 0 ⌊(clusterLL op cl d - op.start d) * ratio op d⌋ ∧
    ((mkCluster op cl).z_anchor d + (mkCluster op cl).z_num d : ℤ) =
      min ⌈(clusterUR op cl d - op.start d) * ratio op d⌉ ((op.num d : ℤ) - 1) + 1 ∧
    1 ≤ (mkCluster op cl).z_num d ∧
    (mkCluster op cl).z_anchor d + (mkCluster op cl).z_num d ≤ op.num d := by
  have hs : 0 < op.support d := h.2.1 d
  have hxs : (cl.map fun m => op.x m d) ≠ [] := by
    intro hc; exact hne (List.map_eq_nil_iff.mp hc)
  have hmn_lb : op.start d - op.support d ≤ listMinD (cl.map fun m => op.x m d) := by
    apply le_listMinD hxs
    intro b hb
    obtain ⟨m, hm, rfl⟩ := List.mem_map.mp hb
    exact ((hact m hm) d).1
  have hmx_ub : listMaxD (cl.map fun m => op.x m d) ≤ op.stop d + op.support d := by
    apply listMaxD_le hxs
    intro b hb
    obtain ⟨m, hm, rfl⟩ := List.mem_map.mp hb
    exact ((hact m hm) d).2
  have hmnmx := listMinD_le_listMaxD hxs
  have hLLβ : clusterLL op cl d ≤ op.stop d := by
    rw [clusterLL]; linarith
  have hURα : op.start d ≤ clusterUR op cl d := by
    rw [clusterUR]; linarith
  have hLLUR : clusterLL op cl d ≤ clusterUR op cl d := by
    rw [clusterLL, clusterUR]; linarith
  set A : ℤ := max 0 ⌊(clusterLL op cl d - op.start d) * ratio op d⌋ with hA
  set B : ℤ := min ⌈(clusterUR op cl d - op.start d) * ratio op d⌉ ((op.num d : ℤ) - 1)
    with hB
  have key : A ≤ B ∧ B ≤ (op.num d : ℤ) - 1 ∧ 1 ≤ op.num d := by
    refine ⟨?_, min_le_right _ _, num_pos h d⟩
    by_cases hN1 : op.num d = 1
    · have hr : ratio op d = 0 := by
        rw [ratio, if_neg (by omega), hN1]; norm_num
      rw [hA, hB, hr, hN1]
      simp
    · have hN : 1 < op.num d := by have := num_pos h d; omega
      have hr := ratio_pos h hN
      have hfc : ⌊(clusterLL op cl d - op.start d) * ratio op d⌋ ≤
          ⌈(clusterUR op cl d - op.start d) * ratio op d⌉ := by
        have h1 : (clusterLL op cl d - op.start d) * ratio op d ≤
            (clusterUR op cl d - op.start d) * ratio op d := by
          apply mul_le_mul_of_nonneg_right (by linarith) (le_of_lt hr)
        have h2 : ((⌊(clusterLL op cl d - op.start d) * ratio op d⌋ : ℤ) : ℚ) ≤
            ((⌈(clusterUR op cl d - op.start d) * ratio op d⌉ : ℤ) : ℚ) :=
          le_trans (Int.floor_le _) (le_trans h1 (Int.le_ceil _))
        exact_mod_cast h2
      have hfloor_le : ⌊(clusterLL op cl d - op.start d) * ratio op d⌋ ≤
          (op.num d : ℤ) - 1 := by
        have h1 : (clusterLL op cl d - op.start d) * ratio op d ≤
            (op.stop d - op.start d) * ratio op d := by
          apply mul_le_mul_of_nonneg_right (by linarith) (le_of_lt hr)
        have hαβ := start_lt_stop_of_num_gt_one h hN
        have h2 : (op.stop d - op.start d) * ratio op d = (op.num d : ℚ) - 1 := by
          rw [ratio, if_pos hN, mul_div_assoc']
          exact mul_div_cancel_left₀ _ (by linarith)
        have h3 : (clusterLL op cl d - op.start d) * ratio op d ≤
            (((op.num d : ℤ) - 1 : ℤ) : ℚ) := by
          push_cast
          linarith
        have h4 := Int.floor_le_floor h3
        rwa [Int.floor_intCast] at h4
      have hceil_nonneg : 0 ≤ ⌈(clusterUR op cl d - op.start d) * ratio op d⌉ :=
        Int.ceil_nonneg (mul_nonneg (by linarith) (le_of_lt hr))
      have hB0 : (0 : ℤ) ≤ B := le_min hceil_nonneg (by omega)
      exact max_le hB0 (le_min hfc hfloor_le)
  obtain ⟨hAB, hBN, hN1⟩ := key
  have hA0 : (0 : ℤ) ≤ A := le_max_left 0 _
  have hanchor : ((mkCluster op cl).z_anchor d : ℤ) = A := by
    show ((Int.toNat A : ℤ)) = A
    exact Int.toNat_of_nonneg hA0
  have hznum : ((mkCluster op cl).z_num d : ℤ) = B - A + 1 := by
    show ((Int.toNat (B - A + 1) : ℤ)) = B - A + 1
    exact Int.toNat_of_nonneg (by omega)
  refine ⟨hanchor, ?_, ?_, ?_⟩
  · push_cast
    rw [hanchor, hznum]
    omega
  · have : 1 ≤ ((mkCluster op cl).z_num d : ℤ) := by rw [hznum]; omega
    exact_mod_cast this
  · have : ((mkCluster op cl).z_anchor d + (mkCluster op cl).z_num d : ℤ) ≤
        (op.num d : ℤ) := by
      push_cast
      rw [hanchor, hznum]
      omega
    exact_mod_cast this

theorem mem_window_of_support {D : ℕ} {op : UniformSpread D} (h : constructOk op)
    {cl : List ℕ} (hne : cl ≠ []) (hact : ∀ m ∈ cl, active op m) {m : ℕ}
    (hm : m ∈ cl) (d : Fin D) {j : ℕ} (hj : j < op.num d)
    (hsup : |zc op j d - op.x m d| ≤ op.support d) :
    (mkCluster op cl).z_anchor d ≤ j ∧
      j < (mkCluster op cl).z_anchor d + (mkCluster op cl).z_num d := by
  obtain ⟨hanch, hsum, hz1, hzN⟩ := window_facts h hne hact d
  have habs := abs_le.mp hsup
  have hxmem : op.x m d ∈ cl.map fun k => op.x k d :=
    List.mem_map.mpr ⟨m, hm, rfl⟩
  have hmn : listMinD (cl.map fun k => op.x k d) ≤ op.x m d := listMinD_le hxmem
  have hmx : op.x m d ≤ listMaxD (cl.map fun k => op.x k d) := le_listMaxD hxmem
  have hLL : clusterLL op cl d ≤ zc op j d := by
    rw [clusterLL]; linarith
  have hUR : zc op j d ≤ clusterUR op cl d := by
    rw [clusterUR]; linarith
  by_cases hN1 : op.num d = 1
  · have hr : ratio op d = 0 := by
      rw [ratio, if_neg (by omega), hN1]; norm_num
    rw [hr] at hanch hsum
    simp only [mul_zero, Int.floor_zero, Int.ceil_zero, max_self] at hanch hsum
    rw [hN1] at hsum hj
    simp at hanch hsum
    omega
  · have hN : 1 < op.num d := by have := num_pos h d; omega
    have hr := ratio_pos h hN
    have hsr := step_mul_ratio h hN
    have hstep : (j : ℚ) * step op d = zc op j d - op.start d := by
      rw [zc]; ring
    have hfloor_j : ⌊(clusterLL op cl d - op.start d) * ratio op d⌋ ≤ (j : ℤ) := by
      have h1 : (clusterLL op cl d - op.start d) * ratio op d ≤ (((j : ℤ) : ℤ) : ℚ) := by
        calc (clusterLL op cl d - op.start d) * ratio op d
            ≤ (zc op j d - op.start d) * ratio op d := by
              apply mul_le_mul_of_nonneg_right (by linarith) (le_of_lt hr)
          _ = (j : ℚ) * (step op d * ratio op d) := by rw [← hstep]; ring
          _ = (j : ℚ) := by rw [hsr, mul_one]
          _ = (((j : ℤ) : ℤ) : ℚ) := by push_cast; ring
      have h2 := Int.floor_le_floor h1
      rwa [Int.floor_intCast] at h2
    have hceil_j : (j : ℤ) ≤ ⌈(clusterUR op cl d - op.start d) * ratio op d⌉ := by
      have h1 : (((j : ℤ) : ℤ) : ℚ) ≤ (clusterUR op cl d - op.start d) * ratio op d := by
        calc (((j : ℤ) : ℤ) : ℚ) = (j : ℚ) := by push_cast; ring
          _ = (j : ℚ) * (step op d * ratio op d) := by rw [hsr, mul_one]
          _ = (zc op j d - op.start d) * ratio op d := by rw [← hstep]; ring
          _ ≤ (clusterUR op cl d - op.start d) * ratio op d := by
              apply mul_le_mul_of_nonneg_right (by linarith) (le_of_lt hr)
      have h2 := Int.ceil_le_ceil h1
      rwa [Int.ceil_intCast] at h2
    have hAj : ((mkCluster op cl).z_anchor d : ℤ) ≤ (j : ℤ) := by
      rw [hanch]
      exact max_le (by omega) hfloor_j
    have hjB : (j : ℤ) <
        ((mkCluster op cl).z_anchor d + (mkCluster op cl).z_num d : ℤ) := by
      rw [hsum]
      have : (j : ℤ) ≤ ⌈(clusterUR op cl d - op.start d) * ratio op d⌉ ⊓
          ((op.num d : ℤ) - 1) := by
        refine le_min hceil_j ?_
        omega
      omega
    constructor
    · exact_mod_cast hAj
    · exact_mod_cast hjB

theorem support_lt_of_not_mem_window {D : ℕ} {op : UniformSpread D} (h : constructOk op)
    {cl : List ℕ} (hne : cl ≠ []) (hact : ∀ m ∈ cl, active op m) {m : ℕ}
    (hm : m ∈ cl) (d : Fin D) {j : ℕ} (hj : j < op.num d)
    (hout : j < (mkCluster op cl).z_anchor d ∨
      (mkCluster op cl).z_anchor d + (mkCluster op cl).z_num d ≤ j) :
    op.support d < |zc op j d - op.x m d| := by
  by_contra hc
  push_neg at hc
  have := mem_window_of_support h hne hact hm d hj hc
  omega

theorem denseEntry_eq_zero_of_inactive {D : ℕ} {op : UniformSpread D}
    (h : constructOk op) (hk : kernelSupported op) {m : ℕ} (hm : ¬ active op m)
    {n : Fin D → ℕ} (hn : n ∈ latFinset op) : denseEntry op n m = 0 := by
  rw [active] at hm
  push_neg at hm
  obtain ⟨d, hd⟩ := hm
  have hnd : n d < op.num d := by
    rw [latFinset, Fintype.mem_piFinset] at hn
    exact Finset.mem_range.mp (hn d)
  obtain ⟨hz1, hz2⟩ := zc_mem_range h d hnd
  have hzero : op.phi d (zc op (n d) d - op.x m d) = 0 := by
    apply hk
    by_cases hlo : op.start d - op.support d ≤ op.x m d
    · have hhi := hd hlo
      have h1 : op.x m d - zc op (n d) d > op.support d := by linarith
      calc op.support d < op.x m d - zc op (n d) d := h1
        _ ≤ |op.x m d - zc op (n d) d| := le_abs_self _
        _ = |zc op (n d) d - op.x m d| := abs_sub_comm _ _
    · push_neg at hlo
      have h1 : zc op (n d) d - op.x m d > op.support d := by linarith
      exact lt_of_lt_of_le h1 (le_abs_self _)
  exact Finset.prod_eq_zero (Finset.mem_univ d) hzero

/-! ### Sum rearrangement helpers -/

theorem map_sum_mul {α : Type} (l : List α) (f : α → ℚ) (r : ℚ) :
    (l.map f).sum * r = (l.map fun a => f a * r).sum := by
  induction l with
  | nil => simp
  | cons a t ih => simp only [List.map_cons, List.sum_cons, add_mul, ih]

theorem mul_map_sum {α : Type} (r : ℚ) (l : List α) (f : α → ℚ) :
    r * (l.map f).sum = (l.map fun a => r * f a).sum := by
  induction l with
  | nil => simp
  | cons a t ih => simp only [List.map_cons, List.sum_cons, mul_add, ih]

theorem sum_comm_finset_list {α β : Type} (s : Finset β) (l : List α) (f : α → β → ℚ) :
    ∑ b ∈ s, (l.map fun a => f a b).sum = (l.map fun a => ∑ b ∈ s, f a b).sum := by
  induction l with
  | nil => simp
  | cons a t ih =>
    simp only [List.map_cons, List.sum_cons, Finset.sum_add_distrib, ih]

theorem sum_map_flatten {α : Type} (L : List (List α)) (g : α → ℚ) :
    (L.map fun l => (l.map g).sum).sum = (L.flatten.map g).sum := by
  induction L with
  | nil => simp
  | cons c L ih =>
    simp only [List.map_cons, List.sum_cons, List.flatten_cons, List.map_append,
      List.sum_append, ih]

/-! ### Adjoint fold structure -/

theorem adjFold_not_mem {D : ℕ} (op : UniformSpread D) (v : (Fin D → ℕ) → ℚ) :
    ∀ (cs : List (Cluster D)) (out0 : ℕ → ℚ) (m : ℕ),
      (∀ c ∈ cs, m ∉ c.x_idx) → (cs.foldl (adjStep op v) out0) m = out0 m := by
  intro cs
  induction cs with
  | nil => intro out0 m _; rfl
  | cons c cs ih =>
    intro out0 m hnm
    have h1 : (adjStep op v out0 c) m = out0 m := by
      rw [adjStep, if_neg (hnm c (List.mem_cons_self c cs))]
    rw [List.foldl_cons, ih _ m (fun c2 hc2 => hnm c2 (List.mem_cons_of_mem c hc2)), h1]

theorem adjFold_eq_sum {D : ℕ} (op : UniformSpread D) (v : (Fin D → ℕ) → ℚ) :
    ∀ (cs : List (Cluster D)) (out0 : ℕ → ℚ) (m : ℕ),
      ((cs.map Cluster.x_idx).flatten).count m ≤ 1 →
      (cs.foldl (adjStep op v) out0) m =
        if ∃ c ∈ cs, m ∈ c.x_idx then
          (cs.map fun c => if m ∈ c.x_idx then interpVal op c v m else 0).sum
        else out0 m := by
  intro cs
  induction cs with
  | nil => intro out0 m _; simp
  | cons c cs ih =>
    intro out0 m hcount
    simp only [List.map_cons, List.flatten_cons, List.count_append] at hcount
    rw [List.foldl_cons]
    by_cases hmc : m ∈ c.x_idx
    · have hc1 : 1 ≤ c.x_idx.count m := List.count_pos_iff.mpr hmc
      have hrest : ((cs.map Cluster.x_idx).flatten).count m = 0 := by omega
      have hnone : ∀ c2 ∈ cs, m ∉ c2.x_idx := by
        intro c2 hc2 hm2
        have : m ∈ (cs.map Cluster.x_idx).flatten :=
          List.mem_flatten.mpr ⟨c2.x_idx, List.mem_map_of_mem Cluster.x_idx hc2, hm2⟩
        rw [← List.count_pos_iff] at this
        omega
      rw [adjFold_not_mem op v cs _ m hnone]
      rw [adjStep, if_pos hmc]
      rw [if_pos ⟨c, List.mem_cons_self c cs, hmc⟩]
      have hzero : (cs.map fun c2 => if m ∈ c2.x_idx then interpVal op c2 v m else 0).sum
          = 0 := by
        apply List.sum_eq_zero
        intro q hq
        rw [List.mem_map] at hq
        obtain ⟨c2, hc2, rfl⟩ := hq
        rw [if_neg (hnone c2 hc2)]
      simp only [List.map_cons, List.sum_cons, if_pos hmc, hzero, add_zero]
    · have h1 : (adjStep op v out0 c) m = out0 m := by
        rw [adjStep, if_neg hmc]
      rw [ih _ m (by omega), h1]
      simp only [List.map_cons, List.sum_cons, if_neg hmc, zero_add]
      by_cases hex : ∃ c2 ∈ cs, m ∈ c2.x_idx
      · rw [if_pos hex, if_pos ?_]
        obtain ⟨c2, hc2, hm2⟩ := hex
        exact ⟨c2, List.mem_cons_of_mem c hc2, hm2⟩
      · rw [if_neg hex, if_neg ?_]
        intro hex2
        obtain ⟨c2, hc2, hm2⟩ := hex2
        rcases List.mem_cons.mp hc2 with h | h
        · subst h; exact hmc hm2
        · exact hex ⟨c2, h, hm2⟩

theorem adjointOp_eq_sum {D : ℕ} (op : UniformSpread D) (v : (Fin D → ℕ) → ℚ) (m : ℕ) :
    adjointOp op v m =
      ((cl_info op).map fun c => if m ∈ c.x_idx then interpVal op c v m else 0).sum := by
  have hcount : ((cl_info op).map Cluster.x_idx).flatten.count m ≤ 1 := by
    rw [cl_count]
    by_cases h : m < op.M ∧ active op m
    · rw [if_pos h]
    · rw [if_neg h]; omega
  rw [adjointOp, adjFold_eq_sum op v _ _ m hcount]
  by_cases hex : ∃ c ∈ cl_info op, m ∈ c.x_idx
  · rw [if_pos hex]
  · rw [if_neg hex]
    symm
    apply List.sum_eq_zero
    intro q hq
    rw [List.mem_map] at hq
    obtain ⟨c, hc, rfl⟩ := hq
    rw [if_neg (fun hmc => hex ⟨c, hc, hmc⟩)]

/-! ### Cluster window facts transported to cl_info -/

theorem cl_info_unpack {D : ℕ} (op : UniformSpread D) {c : Cluster D}
    (hc : c ∈ cl_info op) :
    ∃ cl ∈ clusterLists op, c = mkCluster op cl ∧ cl ≠ [] ∧
      (∀ m ∈ cl, active op m) := by
  rw [cl_info, List.mem_map] at hc
  obtain ⟨cl, hcl, rfl⟩ := hc
  exact ⟨cl, hcl, rfl, clusterLists_ne_nil op hcl, fun m hm =>
    ((mem_activeIdx op m).mp (mem_of_mem_clusterLists op hcl hm)).2⟩

theorem cl_info_window {D : ℕ} {op : UniformSpread D} (h : constructOk op)
    {c : Cluster D} (hc : c ∈ cl_info op) (d : Fin D) :
    1 ≤ c.z_num d ∧ c.z_anchor d + c.z_num d ≤ op.num d := by
  obtain ⟨cl, _, rfl, hne, hact⟩ := cl_info_unpack op hc
  obtain ⟨-, -, h1, h2⟩ := window_facts h hne hact d
  exact ⟨h1, h2⟩

theorem cl_info_mem_window {D : ℕ} {op : UniformSpread D} (h : constructOk op)
    {c : Cluster D} (hc : c ∈ cl_info op) {m : ℕ} (hm : m ∈ c.x_idx) (d : Fin D)
    {j : ℕ} (hj : j < op.num d) (hsup : |zc op j d - op.x m d| ≤ op.support d) :
    c.z_anchor d ≤ j ∧ j < c.z_anchor d + c.z_num d := by
  obtain ⟨cl, _, rfl, hne, hact⟩ := cl_info_unpack op hc
  exact mem_window_of_support h hne hact hm d hj hsup

theorem cl_info_support_lt {D : ℕ} {op : UniformSpread D} (h : constructOk op)
    {c : Cluster D} (hc : c ∈ cl_info op) {m : ℕ} (hm : m ∈ c.x_idx) (d : Fin D)
    {j : ℕ} (hj : j < op.num d)
    (hout : j < c.z_anchor d ∨ c.z_anchor d + c.z_num d ≤ j) :
    op.support d < |zc op j d - op.x m d| := by
  by_contra hcon
  push_neg at hcon
  have := cl_info_mem_window h hc hm d hj hcon
  omega

theorem addA_mem_lat {D : ℕ} {op : UniformSpread D} (h : constructOk op)
    {c : Cluster D} (hc : c ∈ cl_info op) {rel : Fin D → ℕ}
    (hrel : rel ∈ fullBox c) : addA c rel ∈ latFinset op := by
  rw [fullBox, Fintype.mem_piFinset] at hrel
  rw [latFinset, Fintype.mem_piFinset]
  intro d
  rw [Finset.mem_range]
  have h1 := (hrel d)
  rw [Finset.mem_range] at h1
  have h2 := (cl_info_window h hc d).2
  rw [addA]
  omega

/-! ### Per-cluster collapse to the dense reference -/

theorem clSpread_inner_eq {D : ℕ} {op : UniformSpread D} (h : constructOk op)
    (hk : kernelSupported op) {c : Cluster D} (hc : c ∈ cl_info op) {m : ℕ}
    (hm : m ∈ c.x_idx) (w : ℕ → ℚ) {n : Fin D → ℕ} (hn : n ∈ latFinset op) :
    (∑ rel ∈ trimBox op c m, if n = addA c rel then kprod op c m rel * w m else 0) =
      denseEntry op n m * w m := by
  have hnd : ∀ d, n d < op.num d := by
    intro d
    rw [latFinset, Fintype.mem_piFinset] at hn
    exact Finset.mem_range.mp (hn d)
  have hstep1 :
      (∑ rel ∈ trimBox op c m, if n = addA c rel then kprod op c m rel * w m else 0) =
        ∑ rel ∈ fullBox c, if n = addA c rel then kprod op c m rel * w m else 0 := by
    have hform : ∀ (rel : Fin D → ℕ),
        (if n = addA c rel then kprod op c m rel * w m else 0) =
          kprod op c m rel * (if n = addA c rel then w m else 0) := by
      intro rel
      by_cases hcond : n = addA c rel
      · rw [if_pos hcond, if_pos hcond]
      · rw [if_neg hcond, if_neg hcond, mul_zero]
    rw [Finset.sum_congr rfl fun rel _ => hform rel,
      sum_trim_eq_sum_full op c m fun rel => if n = addA c rel then w m else 0,
      Finset.sum_congr rfl fun rel _ => (hform rel).symm]
  rw [hstep1]
  by_cases hwin : ∀ d, c.z_anchor d ≤ n d ∧ n d < c.z_anchor d + c.z_num d
  · have hrelmem : (fun d => n d - c.z_anchor d) ∈ fullBox c := by
      rw [fullBox, Fintype.mem_piFinset]
      intro d
      rw [Finset.mem_range]
      have := hwin d
      omega
    rw [Finset.sum_eq_single_of_mem _ hrelmem ?_]
    · have haddA : n = addA c fun d => n d - c.z_anchor d := by
        funext d
        rw [addA]
        have := hwin d
        omega
      rw [if_pos haddA]
      congr 1
      rw [kprod, denseEntry]
      apply Finset.prod_congr rfl
      intro d _
      have hlt : n d - c.z_anchor d < c.z_num d := by have := hwin d; omega
      rw [kval_eq_phi op c m d hlt]
      have hidx : c.z_anchor d + (n d - c.z_anchor d) = n d := by
        have := hwin d
        omega
      rw [hidx]
    · intro rel _ hne
      rw [if_neg]
      intro heq
      apply hne
      funext d
      have : n d = c.z_anchor d + rel d := by rw [heq, addA]
      omega
  · push_neg at hwin
    obtain ⟨d0, hd0⟩ := hwin
    have hout : n d0 < c.z_anchor d0 ∨ c.z_anchor d0 + c.z_num d0 ≤ n d0 := by
      by_cases hle : c.z_anchor d0 ≤ n d0
      · right; exact hd0 hle
      · left; omega
    have hsum0 : (∑ rel ∈ fullBox c,
        if n = addA c rel then kprod op c m rel * w m else 0) = 0 := by
      apply Finset.sum_eq_zero
      intro rel hrel
      rw [if_neg]
      intro heq
      rw [fullBox, Fintype.mem_piFinset] at hrel
      have h1 : rel d0 ∈ Finset.range (c.z_num d0) := hrel d0
      rw [Finset.mem_range] at h1
      have h2 : n d0 = c.z_anchor d0 + rel d0 := by rw [heq, addA]
      omega
    have hdense0 : denseEntry op n m = 0 := by
      rw [denseEntry]
      apply Finset.prod_eq_zero (Finset.mem_univ d0)
      exact hk d0 _ (cl_info_support_lt h hc hm d0 (hnd d0) hout)
    rw [hsum0, hdense0, zero_mul]

theorem clSpread_eq_dense {D : ℕ} {op : UniformSpread D} (h : constructOk op)
    (hk : kernelSupported op) {c : Cluster D} (hc : c ∈ cl_info op) (w : ℕ → ℚ)
    {n : Fin D → ℕ} (hn : n ∈ latFinset op) :
    clSpread op c w n = (c.x_idx.map fun m => denseEntry op n m * w m).sum := by
  rw [clSpread]
  congr 1
  apply List.map_congr_left
  intro m hm
  exact clSpread_inner_eq h hk hc hm w hn

theorem applyOp_eq_denseApply {D : ℕ} {op : UniformSpread D} (h : constructOk op)
    (hk : kernelSupported op) (w : ℕ → ℚ) {n : Fin D → ℕ} (hn : n ∈ latFinset op) :
    applyOp op w n = denseApply op w n := by
  rw [applyOp]
  have h1 : (cl_info op).map (fun c => clSpread op c w n) =
      (cl_info op).map fun c => (c.x_idx.map fun m => denseEntry op n m * w m).sum :=
    List.map_congr_left fun c hc => clSpread_eq_dense h hk hc w hn
  rw [h1]
  have h2 : ((cl_info op).map fun c =>
      (c.x_idx.map fun m => denseEntry op n m * w m).sum) =
      ((cl_info op).map Cluster.x_idx).map fun l =>
        (l.map fun m => denseEntry op n m * w m).sum := by
    rw [List.map_map]
    rfl
  rw [h2, sum_map_flatten, cl_info_map_x_idx]
  have h3 : ((clusterLists op).flatten.map fun m => denseEntry op n m * w m).sum =
      ((activeIdx op).map fun m => denseEntry op n m * w m).sum :=
    List.Perm.sum_eq (List.Perm.map _ (clusterLists_flatten_perm op))
  rw [h3]
  rw [← List.sum_toFinset _ (activeIdx_nodup op)]
  rw [denseApply]
  apply Finset.sum_subset
  · intro m hmem
    rw [List.mem_toFinset, mem_activeIdx] at hmem
    exact Finset.mem_range.mpr hmem.1
  · intro m hmR hmT
    rw [List.mem_toFinset, mem_activeIdx] at hmT
    rw [Finset.mem_range] at hmR
    have hnact : ¬ active op m := fun ha => hmT ⟨hmR, ha⟩
    rw [denseEntry_eq_zero_of_inactive h hk hnact hn, zero_mul]

/-! ### Exact adjointness of the clustered spread and interpolate -/

theorem innerLat_apply_eq {D : ℕ} {op : UniformSpread D} (h : constructOk op)
    (w : ℕ → ℚ) (v : (Fin D → ℕ) → ℚ) :
    innerLat op (applyOp op w) v =
      ((cl_info op).map fun c =>
        (c.x_idx.map fun m => w m * interpVal op c v m).sum).sum := by
  rw [innerLat]
  have h1 : ∀ n, applyOp op w n * v n =
      ((cl_info op).map fun c => clSpread op c w n * v n).sum := by
    intro n
    rw [applyOp, map_sum_mul]
  rw [Finset.sum_congr rfl fun n _ => h1 n, sum_comm_finset_list]
  apply congrArg
  apply List.map_congr_left
  intro c hc
  have h2 : ∀ n, clSpread op c w n * v n =
      (c.x_idx.map fun m =>
        (∑ rel ∈ trimBox op c m,
          if n = addA c rel then kprod op c m rel * w m else 0) * v n).sum := by
    intro n
    rw [clSpread, map_sum_mul]
  rw [Finset.sum_congr rfl fun n _ => h2 n, sum_comm_finset_list]
  apply congrArg
  apply List.map_congr_left
  intro m hm
  have h3 : ∀ n, (∑ rel ∈ trimBox op c m,
      if n = addA c rel then kprod op c m rel * w m else 0) * v n =
      ∑ rel ∈ trimBox op c m,
        if n = addA c rel then kprod op c m rel * w m * v n else 0 := by
    intro n
    rw [Finset.sum_mul]
    apply Finset.sum_congr rfl
    intro rel _
    by_cases hcond : n = addA c rel
    · rw [if_pos hcond, if_pos hcond]
    · rw [if_neg hcond, if_neg hcond, zero_mul]
  rw [Finset.sum_congr rfl fun n _ => h3 n, Finset.sum_comm]
  have h4 : ∀ rel ∈ trimBox op c m,
      (∑ n ∈ latFinset op,
        if n = addA c rel then kprod op c m rel * w m * v n else 0) =
      w m * (kprod op c m rel * v (addA c rel)) := by
    intro rel hrel
    rw [Finset.sum_ite_eq' (latFinset op) (addA c rel)
      fun n => kprod op c m rel * w m * v n]
    rw [if_pos (addA_mem_lat h hc (trimBox_subset_fullBox op c m hrel))]
    ring
  rw [Finset.sum_congr rfl h4, ← Finset.mul_sum, interpVal]

theorem innerPts_adjoint_eq {D : ℕ} (op : UniformSpread D)
    (w : ℕ → ℚ) (v : (Fin D → ℕ) → ℚ) :
    innerPts op.M w (adjointOp op v) =
      ((cl_info op).map fun c =>
        (c.x_idx.map fun m => w m * interpVal op c v m).sum).sum := by
  rw [innerPts]
  have h1 : ∀ m, w m * adjointOp op v m =
      ((cl_info op).map fun c =>
        w m * if m ∈ c.x_idx then interpVal op c v m else 0).sum := by
    intro m
    rw [adjointOp_eq_sum, mul_map_sum]
  rw [Finset.sum_congr rfl fun m _ => h1 m, sum_comm_finset_list]
  apply congrArg
  apply List.map_congr_left
  intro c hc
  have h2 : ∀ m, w m * (if m ∈ c.x_idx then interpVal op c v m else 0) =
      if m ∈ c.x_idx then w m * interpVal op c v m else 0 := by
    intro m
    by_cases hcond : m ∈ c.x_idx
    · rw [if_pos hcond, if_pos hcond]
    · rw [if_neg hcond, if_neg hcond, mul_zero]
  rw [Finset.sum_congr rfl fun m _ => h2 m, ← Finset.sum_filter]
  have h3 : (Finset.range op.M).filter (fun m => m ∈ c.x_idx) = c.x_idx.toFinset := by
    ext m
    rw [Finset.mem_filter, List.mem_toFinset, Finset.mem_range]
    constructor
    · intro hpair; exact hpair.2
    · intro hmem; exact ⟨(cl_info_members op hc hmem).1, hmem⟩
  rw [h3, List.sum_toFinset _ (cl_info_x_idx_nodup op hc)]

theorem inner_adjointness {D : ℕ} {op : UniformSpread D} (h : constructOk op)
    (w : ℕ → ℚ) (v : (Fin D → ℕ) → ℚ) :
    innerLat op (applyOp op w) v = innerPts op.M w (adjointOp op v) :=
  (innerLat_apply_eq h w v).trans (innerPts_adjoint_eq op w v).symm

theorem adjointOp_eq_denseAdjoint {D : ℕ} {op : UniformSpread D} (h : constructOk op)
    (hk : kernelSupported op) (v : (Fin D → ℕ) → ℚ) {m : ℕ} (hm : m < op.M) :
    adjointOp op v m = denseAdjoint op v m := by
  have hdelta : ∀ (u : ℕ → ℚ),
      innerPts op.M (fun k => if k = m then 1 else 0) u = u m := by
    intro u
    rw [innerPts]
    have h1 : ∀ k, (if k = m then (1 : ℚ) else 0) * u k =
        if k = m then u k else 0 := by
      intro k
      by_cases hcond : k = m
      · rw [if_pos hcond, if_pos hcond, one_mul]
      · rw [if_neg hcond, if_neg hcond, zero_mul]
    rw [Finset.sum_congr rfl fun k _ => h1 k,
      Finset.sum_ite_eq' (Finset.range op.M) m u, if_pos (Finset.mem_range.mpr hm)]
  have h2 := inner_adjointness h (fun k => if k = m then (1 : ℚ) else 0) v
  have h3 : innerLat op (applyOp op fun k => if k = m then (1 : ℚ) else 0) v =
      innerLat op (denseApply op fun k => if k = m then (1 : ℚ) else 0) v := by
    rw [innerLat, innerLat]
    exact Finset.sum_congr rfl fun n hn => by
      rw [applyOp_eq_denseApply h hk _ hn]
  have h4 : innerLat op (denseApply op fun k => if k = m then (1 : ℚ) else 0) v =
      denseAdjoint op v m := by
    rw [innerLat, denseAdjoint]
    apply Finset.sum_congr rfl
    intro n _
    congr 1
    rw [denseApply]
    have h5 : ∀ k, denseEntry op n k * (if k = m then (1 : ℚ) else 0) =
        if k = m then denseEntry op n k else 0 := by
      intro k
      by_cases hcond : k = m
      · rw [if_pos hcond, if_pos hcond, mul_one]
      · rw [if_neg hcond, if_neg hcond, mul_zero]
    rw [Finset.sum_congr rfl fun k _ => h5 k,
      Finset.sum_ite_eq' (Finset.range op.M) m fun k => denseEntry op n k,
      if_pos (Finset.mem_range.mpr hm)]
  rw [← hdelta (adjointOp op v), ← h2, h3, h4]

theorem latFinset_card {D : ℕ} (op : UniformSpread D) :
    (latFinset op).card = ∏ d, op.num d := by
  rw [latFinset, Fintype.card_piFinset]
  simp

/-! ### Culling facts -/

theorem not_mem_cluster_of_inactive {D : ℕ} (op : UniformSpread D) {m : ℕ}
    (hm : ¬ active op m) {c : Cluster D} (hc : c ∈ cl_info op) : m ∉ c.x_idx :=
  fun hmem => hm ((cl_info_members op hc hmem).2)

theorem applyOp_eq_of_agree {D : ℕ} (op : UniformSpread D) {w w2 : ℕ → ℚ}
    (hagree : ∀ c ∈ cl_info op, ∀ m ∈ c.x_idx, w m = w2 m) :
    applyOp op w = applyOp op w2 := by
  funext n
  rw [applyOp, applyOp]
  apply congrArg
  apply List.map_congr_left
  intro c hc
  rw [clSpread, clSpread]
  apply congrArg
  apply List.map_congr_left
  intro m hm
  rw [hagree c hc m hm]

theorem cl_info_nil_of_no_active {D : ℕ} (op : UniformSpread D)
    (hA : activeIdx op = []) : cl_info op = [] := by
  rw [cl_info, clusterLists, hA]
  rw [grid_cluster]
  rfl

theorem applyOp_zero_of_nil {D : ℕ} {op : UniformSpread D} (hnil : cl_info op = [])
    (w : ℕ → ℚ) (n : Fin D → ℕ) : applyOp op w n = 0 := by
  rw [applyOp, hnil]
  rfl

theorem adjointOp_zero_of_not_mem {D : ℕ} (op : UniformSpread D)
    (v : (Fin D → ℕ) → ℚ) {m : ℕ} (hm : ∀ c ∈ cl_info op, m ∉ c.x_idx) :
    adjointOp op v m = 0 := by
  rw [adjointOp]
  exact adjFold_not_mem op v (cl_info op) _ m hm

/-! ### Claim theorems -/

/-- C1: for every constructed operator and all weights w and lattice values v,
the inner product of apply(w) with v equals the inner product of w with
adjoint(v): the spread and interpolate routines are exact adjoints, for any
kernel function. -/
theorem C1_spread_interpolate_adjoint {D : ℕ} (op : UniformSpread D)
    (h : constructOk op) (w : ℕ → ℚ) (v : (Fin D → ℕ) → ℚ) :
    innerLat op (applyOp op w) v = innerPts op.M w (adjointOp op v) :=
  inner_adjointness h w v

/-- Witness for C1 on the concrete triangular-kernel operator. -/
theorem C1_witness :
    constructOk exOp ∧
      innerLat exOp (applyOp exOp fun _ => 1) (fun _ => 1) =
        innerPts exOp.M (fun _ => 1) (adjointOp exOp fun _ => 1) :=
  ⟨by decide, C1_spread_interpolate_adjoint exOp (by decide) (fun _ => 1) (fun _ => 1)⟩

/-- C3: the cluster metadata built at construction is a partition of the
active sample set: every index of an active point appears in the x_idx list
of exactly one cluster, and no cluster holds an inactive index or a
duplicate (stated as an exact occurrence count over all clusters). -/
theorem C3_clusters_partition_active {D : ℕ} (op : UniformSpread D) (m : ℕ) :
    (((cl_info op).map Cluster.x_idx).flatten).count m =
      if m < op.M ∧ active op m then 1 else 0 :=
  cl_count op m

/-- C6 counterexample: an operator with count 1 and start strictly below stop
on the same axis passes every constructor assertion, so count = 1 is not
equivalent to start = stop. -/
theorem C6_counterexample :
    constructOk exOne ∧ ¬ (exOne.num 0 = 1 ↔ exOne.start 0 = exOne.stop 0) := by
  constructor
  · decide
  · intro hiff
    have h1 : exOne.num 0 = 1 := rfl
    have h2 := hiff.mp h1
    have : ¬ ((0 : ℚ) = 1) := by norm_num
    exact this h2

/-- C6 amended: every successfully constructed lattice satisfies start ≤ stop
and count ≥ 1 on every axis, and count = 1 whenever start = stop; the
converse direction (count = 1 forces start = stop) does not hold. -/
theorem C6_lattice_invariants {D : ℕ} (op : UniformSpread D) (h : constructOk op)
    (d : Fin D) :
    op.start d ≤ op.stop d ∧ 1 ≤ op.num d ∧
      (op.start d = op.stop d → op.num d = 1) :=
  ⟨(h.1 d).1, num_pos h d, (h.1 d).2.2⟩

/-- Witness for the amended C6 on the concrete operator. -/
theorem C6_witness :
    constructOk exOp ∧
      (exOp.start 0 ≤ exOp.stop 0 ∧ 1 ≤ exOp.num 0 ∧
        (exOp.start 0 = exOp.stop 0 → exOp.num 0 = 1)) :=
  ⟨by decide, C6_lattice_invariants exOp (by decide) 0⟩

/-- C7 counterexample: a lattice with zero nodes on a proper axis satisfies
every condition of the claimed malformation list (start ≤ stop, degenerate
count consistent, positive supports, positive max_cluster_size,
max_window_ratio ≥ 3) yet is rejected by the constructor, refuting the
claimed exact characterisation of construction failure. -/
theorem C7_counterexample :
    (∀ d, exZero.start d ≤ exZero.stop d ∧
      (exZero.start d = exZero.stop d → exZero.num d = 1)) ∧
    (∀ d, 0 < exZero.support d) ∧
    0 < exZero.max_cluster_size ∧ 3 ≤ exZero.max_window_ratio ∧
    ¬ constructOk exZero := by
  refine ⟨?_, ?_, ?_, ?_, ?_⟩
  · decide
  · decide
  · decide
  · decide
  · intro hc
    have h1 := (hc.1 0).2.1
    have h2 : exZero.start 0 < exZero.stop 0 := by
      show (0 : ℚ) < 1
      norm_num
    have h3 := h1 h2
    exact absurd h3 (by decide)

/-- C7 amended: construction succeeds exactly when every axis has
start ≤ stop, count ≥ 1, count = 1 on degenerate axes, all kernel supports
positive, max_cluster_size positive and max_window_ratio at least 3. -/
theorem C7_construct_error_iff {D : ℕ} (op : UniformSpread D) :
    constructOk op ↔
      ((∀ d, op.start d ≤ op.stop d ∧ (op.start d = op.stop d → op.num d = 1) ∧
          1 ≤ op.num d) ∧
        (∀ d, 0 < op.support d) ∧
        0 < op.max_cluster_size ∧ 3 ≤ op.max_window_ratio) := by
  constructor
  · intro h
    exact ⟨fun d => ⟨(h.1 d).1, (h.1 d).2.2, num_pos h d⟩, h.2.1, h.2.2⟩
  · intro h
    exact ⟨fun d => ⟨(h.1 d).1, fun _ => (h.1 d).2.2, (h.1 d).2.1⟩, h.2.1, h.2.2⟩

/-- C10: on an adjoint (interpolate) call, the output weight at every point
excluded from all clusters is exactly zero; an inactive point is excluded
from all clusters, so its output slot is exactly zero. -/
theorem C10_adjoint_inactive_zero {D : ℕ} (op : UniformSpread D) {m : ℕ}
    (hm : ¬ active op m) (v : (Fin D → ℕ) → ℚ) :
    (∀ c ∈ cl_info op, m ∉ c.x_idx) ∧ adjointOp op v m = 0 := by
  have hall : ∀ c ∈ cl_info op, m ∉ c.x_idx := fun c hc =>
    not_mem_cluster_of_inactive op hm hc
  exact ⟨hall, adjointOp_zero_of_not_mem op v hall⟩

/-- Witness for C10: the far-away point of exOut gets weight exactly zero. -/
theorem C10_witness :
    ¬ active exOut 1 ∧
      ((∀ c ∈ cl_info exOut, 1 ∉ c.x_idx) ∧ adjointOp exOut (fun _ => 1) 1 = 0) := by
  have hm : ¬ active exOut 1 := by
    intro h
    have h2 := (h 0).2
    have : ¬ ((100 : ℚ) ≤ 4 + 1) := by norm_num
    exact this h2
  exact ⟨hm, C10_adjoint_inactive_zero exOut hm fun _ => 1⟩

/-- C4: a sample point outside start - s, stop + s on some axis is excluded
from every cluster (not an error) and its weight contributes nothing to the
apply output; if no active point remains, the cluster map is empty and apply
returns the all-zero lattice array. -/
theorem C4_inactive_culled {D : ℕ} (op : UniformSpread D) {m : ℕ}
    (hm : ¬ active op m) :
    (∀ c ∈ cl_info op, m ∉ c.x_idx) ∧
    (∀ w w2 : ℕ → ℚ, (∀ k, k ≠ m → w k = w2 k) → applyOp op w = applyOp op w2) ∧
    (activeIdx op = [] → cl_info op = [] ∧
      ∀ (w : ℕ → ℚ) (n : Fin D → ℕ), applyOp op w n = 0) := by
  refine ⟨fun c hc => not_mem_cluster_of_inactive op hm hc, ?_, ?_⟩
  · intro w w2 hagree
    apply applyOp_eq_of_agree
    intro c hc k hk
    refine hagree k ?_
    intro hkm
    subst hkm
    exact not_mem_cluster_of_inactive op hm hc hk
  · intro hA
    have hnil := cl_info_nil_of_no_active op hA
    exact ⟨hnil, fun w n => applyOp_zero_of_nil hnil w n⟩

/-- Witness for C4 on the operator with a far-away point. -/
theorem C4_witness :
    ¬ active exOut 1 ∧
      ((∀ c ∈ cl_info exOut, 1 ∉ c.x_idx) ∧
      (∀ w w2 : ℕ → ℚ, (∀ k, k ≠ 1 → w k = w2 k) →
        applyOp exOut w = applyOp exOut w2) ∧
      (activeIdx exOut = [] → cl_info exOut = [] ∧
        ∀ (w : ℕ → ℚ) (n : Fin 1 → ℕ), applyOp exOut w n = 0)) := by
  have hm : ¬ active exOut 1 := by
    intro h
    have h2 := (h 0).2
    have : ¬ ((100 : ℚ) ≤ 4 + 1) := by norm_num
    exact this h2
  exact ⟨hm, C4_inactive_culled exOut hm⟩

/-- C2: the clustered fast path agrees with the dense reference: the asarray
matrix has entries given by the product of axis kernels at lattice minus
point coordinates, apply(w) is that matrix applied to w, adjoint(v) is its
transpose applied to v, and the matrix has one row per lattice node,
N1 * ... * ND in total, and one column per point. -/
theorem C2_clustered_matches_dense {D : ℕ} (op : UniformSpread D)
    (h : constructOk op) (hk : kernelSupported op) :
    (∀ (n : Fin D → ℕ) (m : ℕ),
      denseEntry op n m = ∏ d, op.phi d (zc op (n d) d - op.x m d)) ∧
    (∀ (w : ℕ → ℚ) (n : Fin D → ℕ), n ∈ latFinset op →
      applyOp op w n = denseApply op w n) ∧
    (∀ (v : (Fin D → ℕ) → ℚ) (m : ℕ), m < op.M →
      adjointOp op v m = denseAdjoint op v m) ∧
    (latFinset op).card = ∏ d, op.num d :=
  ⟨fun _ _ => rfl,
    fun w n hn => applyOp_eq_denseApply h hk w hn,
    fun v _ hm => adjointOp_eq_denseAdjoint h hk v hm,
    latFinset_card op⟩

/-- Witness for C2 on the concrete triangular-kernel operator. -/
theorem C2_witness :
    (constructOk exOp ∧ kernelSupported exOp) ∧
      ∀ (w : ℕ → ℚ) (n : Fin 1 → ℕ), n ∈ latFinset exOp →
        applyOp exOp w n = denseApply exOp w n := by
  have hk : kernelSupported exOp := fun d t ht =>
    max_eq_left (sub_nonpos.mpr (le_of_lt ht))
  exact ⟨⟨by decide, hk⟩, (C2_clustered_matches_dense exOp (by decide) hk).2.1⟩

/-- C8: an apply or adjoint call whose input dtype differs from the bound
dtype casts the input and proceeds, returning the same result as the call on
the pre-cast input; a warning is emitted exactly when the dtype differs and
warnings are enabled; a matching dtype is passed through unchanged with no
warning. Stated for the _cast_warn step and for both call paths. -/
theorem C8_precision_cast {D : ℕ} (op : UniformSpread D) (bound : DType)
    (enable : Bool) (castf : (ℕ → ℚ) → (ℕ → ℚ))
    (castv : ((Fin D → ℕ) → ℚ) → ((Fin D → ℕ) → ℚ)) (dt : DType)
    (arr : ℕ → ℚ) (v : (Fin D → ℕ) → ℚ) :
    (dt = bound → cast_warn bound enable castf dt arr = ((dt, arr), false)) ∧
    (dt ≠ bound → cast_warn bound enable castf dt arr = ((bound, castf arr), enable)) ∧
    ((applyCall op bound enable castf dt arr).1 =
      (applyCall op bound enable castf bound
        ((cast_warn bound enable castf dt arr).1.2)).1) ∧
    ((applyCall op bound enable castf dt arr).2 = true ↔ dt ≠ bound ∧ enable = true) ∧
    (dt = bound → cast_warn bound enable castv dt v = ((dt, v), false)) ∧
    (dt ≠ bound → cast_warn bound enable castv dt v = ((bound, castv v), enable)) ∧
    ((adjointCall op bound enable castv dt v).1 =
      (adjointCall op bound enable castv bound
        ((cast_warn bound enable castv dt v).1.2)).1) ∧
    ((adjointCall op bound enable castv dt v).2 = true ↔ dt ≠ bound ∧ enable = true) := by
  refine ⟨fun h => by rw [cast_warn, if_pos h],
    fun h => by rw [cast_warn, if_neg h], ?_, ?_,
    fun h => by rw [cast_warn, if_pos h],
    fun h => by rw [cast_warn, if_neg h], ?_, ?_⟩
  · by_cases h : dt = bound
    · subst h
      simp [applyCall, cast_warn]
    · simp [applyCall, cast_warn, h]
  · by_cases h : dt = bound
    · subst h
      simp [applyCall, cast_warn]
    · simp [applyCall, cast_warn, h]
  · by_cases h : dt = bound
    · subst h
      simp [adjointCall, cast_warn]
    · simp [adjointCall, cast_warn, h]
  · by_cases h : dt = bound
    · subst h
      simp [adjointCall, cast_warn]
    · simp [adjointCall, cast_warn, h]

/-- Witness for C8: a single-precision input hitting a double-bound operator
is cast and flagged, on both a weight vector and a lattice-value array. -/
theorem C8_witness :
    DType.f32 ≠ DType.f64 ∧
      cast_warn DType.f64 true (fun a => a) DType.f32 (fun _ : ℕ => (1 : ℚ)) =
        ((DType.f64, fun _ => (1 : ℚ)), true) ∧
      cast_warn DType.f64 true (fun a => a) DType.f32
          (fun _ : Fin 1 → ℕ => (1 : ℚ)) =
        ((DType.f64, fun _ => (1 : ℚ)), true) :=
  ⟨by decide,
    (C8_precision_cast exOp DType.f64 true (fun a => a) (fun a => a) DType.f32
      (fun _ => 1) (fun _ => 1)).2.1 (by decide),
    (C8_precision_cast exOp DType.f64 true (fun a => a) (fun a => a) DType.f32
      (fun _ => 1) (fun _ => 1)).2.2.2.2.2.1 (by decide)⟩

/-- C9 helper: the scalar row extraction of a rank-1 array of scalars. -/
theorem vecElems_map_scal (l : List ℚ) : vecElems (l.map NDArr.scal) = some l := by
  induction l with
  | nil => rfl
  | cons v t ih => simp [vecElems, ih]

/-- C9 helper: a rank-1 array of scalars has ndim 1. -/
theorem ndim_map_scal (l : List ℚ) : ndim (NDArr.arr (l.map NDArr.scal)) = 1 := by
  cases l with
  | nil => rfl
  | cons v t => rfl

/-- C9 helper: the rows of an explicit (M, 1) array. -/
theorem matRows_singleton (l : List ℚ) :
    matRows (l.map fun v => NDArr.arr [NDArr.scal v]) = some (l.map fun v => [v]) := by
  induction l with
  | nil => rfl
  | cons v t ih => simp [matRows, toVec, vecElems, ih]

/-- C9: a rank-1 points array of length M is accepted and canonicalised to
the (M, 1) array x[:, np.newaxis], the explicit (M, 1) array canonicalises to
the same value (so the two constructions behave identically), and a points
array of any rank other than 1 or 2 is rejected. -/
theorem C9_points_rank_canonical :
    (∀ l : List ℚ, canonPoints (NDArr.arr (l.map NDArr.scal)) =
      some (l.map fun v => [v])) ∧
    (∀ l : List ℚ, canonPoints (NDArr.arr (l.map fun v => NDArr.arr [NDArr.scal v])) =
      some (l.map fun v => [v])) ∧
    (∀ a : NDArr, ndim a ≠ 1 → ndim a ≠ 2 → canonPoints a = none) := by
  refine ⟨?_, ?_, ?_⟩
  · intro l
    rw [canonPoints, if_pos (ndim_map_scal l)]
    rw [toVec, vecElems_map_scal]
    rfl
  · intro l
    cases l with
    | nil => rfl
    | cons v t =>
      have hnd : ndim (NDArr.arr ((v :: t).map fun v => NDArr.arr [NDArr.scal v])) = 2 := rfl
      rw [canonPoints, if_neg (by rw [hnd]; omega), if_pos hnd]
      rw [toMat, matRows_singleton]
  · intro a h1 h2
    rw [canonPoints, if_neg h1, if_neg h2]

/-- Witness for C9 at a one-point array and at a scalar. -/
theorem C9_witness :
    canonPoints (NDArr.arr [NDArr.scal 1]) = some [[1]] ∧
      canonPoints (NDArr.scal 1) = none :=
  ⟨C9_points_rank_canonical.1 [1],
    C9_points_rank_canonical.2.2 (NDArr.scal 1) (by decide) (by decide)⟩

/-- C5 amended: every final cluster window is computed from the kernel
support bounds of the member points as floor of (LL - start) * ratio clipped
below by 0 for the anchor and ceil of (UR - start) * ratio clipped above by
N - 1 for the upper edge (not nearest-integer rounding), and the resulting
window covers the kernel support of every member point on the lattice. -/
theorem C5_window_floor_ceil {D : ℕ} (op : UniformSpread D) (h : constructOk op)
    {c : Cluster D} (hc : c ∈ cl_info op) (d : Fin D) :
    ((c.z_anchor d : ℤ) =
      max 0 ⌊(clusterLL op c.x_idx d - op.start d) * ratio op d⌋) ∧
    ((c.z_anchor d + c.z_num d : ℤ) =
      min ⌈(clusterUR op c.x_idx d - op.start d) * ratio op d⌉
        ((op.num d : ℤ) - 1) + 1) ∧
    (∀ m ∈ c.x_idx, ∀ j : ℕ, j < op.num d →
      |zc op j d - op.x m d| ≤ op.support d →
      c.z_anchor d ≤ j ∧ j < c.z_anchor d + c.z_num d) := by
  obtain ⟨cl, hclm, rfl, hne, hact⟩ := cl_info_unpack op hc
  obtain ⟨h1, h2, h3, h4⟩ := window_facts h hne hact d
  exact ⟨h1, h2, fun m hm j hj hsup => mem_window_of_support h hne hact hm d hj hsup⟩

/-- C5 computation helper: the single point of exRound is active. -/
theorem exRound_active : active exRound 0 := by
  intro d
  constructor <;> norm_num [exRound]

/-- C5 computation helper: the active index list of exRound. -/
theorem exRound_activeIdx : activeIdx exRound = [0] := by
  rw [activeIdx]
  have hd : decide (active exRound 0) = true := decide_eq_true exRound_active
  rw [show exRound.M = 1 from rfl, show List.range 1 = [0] from rfl]
  simp [List.filter_cons, hd]

/-- C5 computation helper: exRound has a single cluster holding its point. -/
theorem exRound_clusterLists : clusterLists exRound = [[0]] := by
  rw [clusterLists, exRound_activeIdx]
  rw [grid_cluster]
  rw [show List.filter (fun m2 => !decide (cellKey exRound m2 = cellKey exRound 0))
    [] = [] from rfl]
  rw [show List.filter (fun m2 => decide (cellKey exRound m2 = cellKey exRound 0))
    [] = [] from rfl]
  rw [grid_cluster]
  rw [List.map_cons, List.map_nil]
  rw [bisect_cluster, dif_neg (by simp)]
  rfl

/-- C5 computation helper: the cluster metadata list of exRound. -/
theorem exRound_cl_info : cl_info exRound = [mkCluster exRound [0]] := by
  rw [cl_info, exRound_clusterLists]
  rfl

/-- C5 computation helper: the lower window boundary of the exRound cluster. -/
theorem exRound_LL : clusterLL exRound [0] 0 = 3/5 := by
  rw [clusterLL]
  rw [show ([0].map fun m => exRound.x m 0) = [8/5] from rfl]
  rw [show listMinD [(8 : ℚ)/5] = 8/5 from rfl]
  norm_num [exRound]

/-- C5 computation helper: the grid ratio of exRound. -/
theorem exRound_ratio : ratio exRound 0 = 1 := by
  rw [ratio, if_pos (by norm_num [exRound])]
  norm_num [exRound]

/-- C5 computation helper: the lattice step of exRound. -/
theorem exRound_step : step exRound 0 = 1 := by
  rw [step, if_neg (by norm_num [exRound])]
  norm_num [exRound]

/-- C5 computation helper: the stored anchor of the exRound cluster is the
floor-based grid index 0. -/
theorem exRound_anchor : (mkCluster exRound [0]).z_anchor 0 = 0 := by
  show (max 0 ⌊(clusterLL exRound [0] 0 - exRound.start 0) * ratio exRound 0⌋).toNat = 0
  rw [exRound_LL, exRound_ratio]
  norm_num [exRound]

/-- C5 computation helper: the rounding rule of the spec sentence yields grid
index 1 for the same cluster. -/
theorem exRound_specRound : specRoundAnchor exRound [0] 0 = 1 := by
  rw [specRoundAnchor, exRound_LL, exRound_step]
  norm_num [exRound, round_eq]

/-- C5 counterexample: on exRound the stored window anchor is 0 (floor of
0.6) while the round((coord - alpha)/step) rule of the claim gives 1, so the
window is not computed by nearest-integer rounding. -/
theorem C5_counterexample :
    cl_info exRound = [mkCluster exRound [0]] ∧
    (mkCluster exRound [0]).z_anchor 0 = 0 ∧
    specRoundAnchor exRound [0] 0 = 1 :=
  ⟨exRound_cl_info, exRound_anchor, exRound_specRound⟩

/-- Witness for the amended C5 on the exRound cluster. -/
theorem C5_witness :
    constructOk exRound ∧
      ((((mkCluster exRound [0]).z_anchor 0 : ℤ) =
        max 0 ⌊(clusterLL exRound [0] 0 - exRound.start 0) * ratio exRound 0⌋) ∧
      (((mkCluster exRound [0]).z_anchor 0 + (mkCluster exRound [0]).z_num 0 : ℤ) =
        min ⌈(clusterUR exRound [0] 0 - exRound.start 0) * ratio exRound 0⌉
          ((exRound.num 0 : ℤ) - 1) + 1) ∧
      (∀ m ∈ [0], ∀ j : ℕ, j < exRound.num 0 →
        |zc exRound j 0 - exRound.x m 0| ≤ exRound.support 0 →
        (mkCluster exRound [0]).z_anchor 0 ≤ j ∧
          j < (mkCluster exRound [0]).z_anchor 0 + (mkCluster exRound [0]).z_num 0)) := by
  have hc : mkCluster exRound [0] ∈ cl_info exRound := by
    rw [exRound_cl_info]
    exact List.mem_singleton.mpr rfl
  exact ⟨by decide, C5_window_floor_ceil exRound (by decide) hc 0⟩
